import Mathlib

/-!
Shallow embedding of the diskuto-sync replication engine (src/src/lib.ts,
current version: the `Sync` class with `sync`, `#syncUser`, `#copyItem`,
`#syncLatestProfile`) and proofs of the specification claims about it.

Network effects are modelled by explicit oracles:
  * `gui url uid` — `client.getUserItems` (a server's finite item sequence),
  * `fetch url uid sig` — `client.getItemBytes`,
  * `put url uid sig bytes` — `client.putItem` (`true` = resolves,
    `false` = the promise rejects, i.e. an exception),
  * `gp url uid` — `client.getProfile`.
Each server's item set is carried as an explicit `store` of signatures;
a successful `putItem` adds the signature to the destination's store.
-/

namespace DiskutoSync

/-- Raw item payload bytes as returned by getItemBytes. -/
abbrev Bytes := List Nat

/-- An item signature: the byte sequence identifying an item. -/
abbrev Sig := List Nat

/-- One entry of a server's per-user item sequence: timestamp plus signature
(`ItemListEntry` with `timestampMsUtc` and `signature.bytes`). -/
structure ItemRef where
  timestampMsUtc : Int
  signature : Sig
  deriving DecidableEq

/-- Server configuration entry (`ServerInfo` in the source): url, optional
short name, destination flag (`isDest`, absent means false). -/
structure ServerInfo where
  url : String
  name : Option String := none
  isDest : Bool := false
  deriving DecidableEq

/-- Per-server state while syncing one user: the config entry, the set of
signatures the remote currently holds, and the unconsumed part of the
peekable cursor over `getUserItems`. -/
structure SrvState where
  server : ServerInfo
  store : List Sig
  remaining : List ItemRef
  deriving DecidableEq

/-- A user's sync mode: the user's full history, or only the latest
`count` items (`opts.sync.mode == "full"` vs `opts.sync.count`). -/
inductive ModeKind where
  | full
  | latest (count : Int)
  deriving DecidableEq

/-- Per-user sync options (`SyncMode` from config): the mode, plus whether
to also sync followed users (`sync.follows`). -/
structure SyncMode where
  kind : ModeKind
  follows : Bool := false
  deriving DecidableEq

/-- The continuation predicate `moreToSync` of the current `Sync.#syncUser`:
full mode always continues, latest mode while `alreadySyncd < count`. -/
def moreToSync (sync : SyncMode) (alreadySyncd : Nat) : Bool :=
  match sync.kind with
  | .full => true
  | .latest count => decide ((alreadySyncd : Int) < count)

/-- The `moreToSync` of the earlier `Sync.syncUser` in the same file, where
`maxToSync <= 0` meant "no limit". -/
def moreToSyncEarlier (maxToSync : Int) (alreadySyncd : Nat) : Bool :=
  decide (maxToSync ≤ 0) || decide ((alreadySyncd : Int) < maxToSync)

/-- JS `Math.max(...xs)`; only ever applied to non-empty lists. -/
def maxList : List Int → Int
  | [] => 0
  | a :: rest => rest.foldl max a

/-- `peeker.peek()` projected to its timestamp; `none` when the sequence is
exhausted (`done`). -/
def peekTs (s : SrvState) : Option Int :=
  s.remaining.head?.map (fun i => i.timestampMsUtc)

/-- The `timestamps` array of one loop iteration: peeked timestamps of all
non-exhausted cursors, in server order. -/
def timestampsOf (states : List SrvState) : List Int :=
  states.filterMap peekTs

/-- `tip = Math.max(...timestamps)`. -/
def tipOf (states : List SrvState) : Int :=
  maxList (timestampsOf states)

/-- The partition predicate of `#syncUser`:
`!t.nextValue.done && Number(t.nextValue.value.timestampMsUtc) == tip`. -/
def isMatch (tip : Int) (s : SrvState) : Bool :=
  match s.remaining.head? with
  | some i => i.timestampMsUtc == tip
  | none => false

/-- The `matches` side of the partition. -/
def matchesOf (states : List SrvState) : List SrvState :=
  states.filter (isMatch (tipOf states))

/-- The `others` side of the partition. -/
def othersOf (states : List SrvState) : List SrvState :=
  states.filter (fun s => !(isMatch (tipOf states) s))

/-- `choose`: returns `items[0]` (`undefined`, i.e. `none`, when empty). -/
def choose (items : List α) : Option α := items.head?

/-- Events emitted through the logger by one `#copyItem` call. -/
inductive CopyEvent where
  | started (dest : String)
  | error (dest : String) (message : String)
  | success (dest : String)
  deriving DecidableEq

/-- Result of `#copyItem`: emitted log events, updated server states, and
`some msg` when an exception escaped (a rejected `putItem`). -/
structure CopyOutcome where
  events : List CopyEvent
  states : List SrvState
  thrown : Option String
  deriving DecidableEq

/-- Effect of a successful `putItem(uid, sig, bytes)` against the server at
`url`: the signature is added to that server's item set. -/
def pushTo (states : List SrvState) (url : String) (sig : Sig) : List SrvState :=
  states.map (fun s =>
    { s with store := if s.server.url == url then sig :: s.store else s.store })

/-- The destination loop of `#copyItem`. For each destination: start a log
entry; if the fetched item was null, log an error for this destination and
return (abandoning the remaining destinations); otherwise `putItem` — a
rejected put is an exception that escapes the loop. -/
def copyPush (put : String → String → Sig → Bytes → Bool) (uid : String) (sig : Sig)
    (item : Option Bytes) (dests : List ServerInfo) (states : List SrvState) : CopyOutcome :=
  match dests with
  | [] => ⟨[], states, none⟩
  | d :: rest =>
    match item with
    | none => ⟨[.started d.url, .error d.url "Could not copy item from source"], states, none⟩
    | some bytes =>
      if put d.url uid sig bytes then
        let out := copyPush put uid sig item rest (pushTo states d.url sig)
        ⟨.started d.url :: .success d.url :: out.events, out.states, out.thrown⟩
      else
        ⟨[.started d.url], states, some "putItem failed"⟩

/-- `Sync.#copyItem`: keep only destinations marked `isDest`; if none are
left, do nothing; pick the first source; fetch the item bytes once; run the
destination loop. -/
def copyItem (fetch : String → String → Sig → Option Bytes)
    (put : String → String → Sig → Bytes → Bool) (uid : String) (sig : Sig)
    (sources destinations : List ServerInfo) (states : List SrvState) : CopyOutcome :=
  let dests := destinations.filter (fun d => d.isDest)
  if dests.isEmpty then ⟨[], states, none⟩
  else
    match choose sources with
    | none => ⟨[], states, some "TypeError: sources is empty"⟩
    | some source => copyPush put uid sig (fetch source.url uid sig) dests states

/-- The arguments `#syncUser` passes to `#copyItem` in one iteration. -/
structure CopyCall where
  signature : Sig
  sources : List ServerInfo
  destinations : List ServerInfo
  deriving DecidableEq

/-- Outcome of one iteration of the `#syncUser` while-loop body. -/
inductive StepOut where
  | finished (states : List SrvState)
  | stepped (tip : Int) (call : CopyCall) (events : List CopyEvent) (states : List SrvState)
  | err (message : String) (events : List CopyEvent) (states : List SrvState)
  deriving DecidableEq

/-- Advance a cursor past its peeked item when it matched the tip
(`match.peeker.next()` for every match). -/
def advF (tip : Int) (s : SrvState) : SrvState :=
  if isMatch tip s then { s with remaining := s.remaining.tail } else s

/-- One iteration of the merge loop body of `Sync.#syncUser`: peek all
cursors; break when every cursor is done; compute the tip, partition,
take the item from `matches[0]` (the unreachable internal-error branch when
it has no value), copy to the others, advance the matches. -/
def syncStep (fetch : String → String → Sig → Option Bytes)
    (put : String → String → Sig → Bytes → Bool) (uid : String)
    (states : List SrvState) : StepOut :=
  if (timestampsOf states).isEmpty then .finished states
  else
    match (matchesOf states).head? with
    | none => .err "TypeError: matches is empty" [] states
    | some m0 =>
      match m0.remaining.head? with
      | none => .err "coding logic error: can not find next Item" [] states
      | some item =>
        let call : CopyCall :=
          ⟨item.signature, (matchesOf states).map (fun s => s.server),
            (othersOf states).map (fun s => s.server)⟩
        let out := copyItem fetch put uid item.signature call.sources call.destinations states
        match out.thrown with
        | some msg => .err msg out.events out.states
        | none => .stepped (tipOf states) call out.events (out.states.map (advF (tipOf states)))

/-- Final state of one user's merge loop: server states, all copy log
events, the `alreadySyncd` counter, the sequence of tips selected by
successive iterations, and `some msg` when an exception escaped the loop. -/
structure RunOut where
  states : List SrvState
  events : List CopyEvent
  synced : Nat
  tips : List Int
  error : Option String
  deriving DecidableEq

/-- The while-loop of `Sync.#syncUser`, with explicit fuel (the loop itself
is unbounded; enough fuel is provably `totalRemaining + 1`). `none` means
the fuel ran out before the loop exited. -/
def runSync (fetch : String → String → Sig → Option Bytes)
    (put : String → String → Sig → Bytes → Bool) (uid : String) (mode : SyncMode) :
    Nat → Nat → List SrvState → List CopyEvent → List Int → Option RunOut
  | 0, _, _, _, _ => none
  | fuel + 1, alreadySyncd, states, evAcc, tipAcc =>
    if moreToSync mode alreadySyncd then
      match syncStep fetch put uid states with
      | .finished st => some ⟨st, evAcc, alreadySyncd, tipAcc, none⟩
      | .err msg ev st => some ⟨st, evAcc ++ ev, alreadySyncd, tipAcc, some msg⟩
      | .stepped tip _ ev st =>
          runSync fetch put uid mode fuel (alreadySyncd + 1) st (evAcc ++ ev) (tipAcc ++ [tip])
    else some ⟨states, evAcc, alreadySyncd, tipAcc, none⟩

/-- Total number of unconsumed items across all cursors. -/
def totalRemaining (states : List SrvState) : Nat :=
  (states.map (fun s => s.remaining.length)).sum

/-- Initial per-server states when each server's sequence for the user is
given: the store holds exactly the signatures the server listed. -/
def initStates (input : List (ServerInfo × List ItemRef)) : List SrvState :=
  input.map (fun p => ⟨p.1, p.2.map (fun i => i.signature), p.2⟩)

/-- Pointwise description of what `copyPush` does to one server state when
the item bytes were fetched: each destination processed in order adds the
signature to the stores of the servers at its url, until a put fails. -/
def pushF (put : String → String → Sig → Bytes → Bool) (uid : String) (sig : Sig)
    (bytes : Bytes) : List ServerInfo → SrvState → SrvState
  | [], s => s
  | d :: rest, s =>
    if put d.url uid sig bytes then
      pushF put uid sig bytes rest
        { s with store := if s.server.url == d.url then sig :: s.store else s.store }
    else s

/-- Multiset of all unconsumed timestamps across all cursors. -/
def allTs (states : List SrvState) : List Int :=
  (states.map (fun s => s.remaining.map (fun i => i.timestampMsUtc))).flatten

/-- Repeatedly extract the maximum: the distinct values of `l` in strictly
descending order (fuel-based; `peel` supplies sufficient fuel). This is the
specification-side description of "most recent first". -/
def peelFuel : Nat → List Int → List Int
  | 0, _ => []
  | fuel + 1, l =>
    if l.isEmpty then []
    else maxList l :: peelFuel fuel (l.filter (fun x => !(x == maxList l)))

/-- The distinct values of `l` in strictly descending order. -/
def peel (l : List Int) : List Int := peelFuel l.length l

/-- One entry of a profile's follow list (`follow.user!.bytes` and
`follow.displayName`). -/
structure Follow where
  userBytes : String
  displayName : Option String := none
  deriving DecidableEq

/-- A user profile as returned by `getProfile`: the item's timestamp and
signature, the self-declared display name, and the follow list. -/
structure Profile where
  timestampMsUtc : Int
  signature : Sig
  displayName : Option String := none
  follows : List Follow := []
  deriving DecidableEq

/-- `Sync.#syncLatestProfile`, projected to its return value: fetch every
server's profile; `null` when no server has one; otherwise partition on the
newest profile timestamp and return `matches[0].profile`. (The call that
pushes the newest profile to the other servers only mutates remote stores
and does not affect the returned profile.) -/
def syncLatestProfile (gp : String → String → Option Profile)
    (servers : List ServerInfo) (uid : String) : Option Profile :=
  let profiles := servers.map (fun s => (s, gp s.url uid))
  let timestamps := (profiles.filterMap (fun p => p.2)).map (fun p => p.timestampMsUtc)
  if timestamps.isEmpty then none
  else
    let latest := maxList timestamps
    let matched := profiles.filter (fun p =>
      match p.2 with
      | some pr => pr.timestampMsUtc == latest
      | none => false)
    (matched.head?).bind (fun p => p.2)

/-- `UserInfo`: user id with the advisory display names. -/
structure UserInfo where
  id : String
  displayName : Option String := none
  knownName : Option String := none
  deriving DecidableEq

/-- `SyncUserOptions`: the unit collected into the `usersToSync` map. -/
structure SyncUserOptions where
  user : UserInfo
  sync : SyncMode
  deriving DecidableEq

/-- `SyncUserOpts`: one directly configured user given to `Sync.sync`. -/
structure SyncUserOpts where
  name : String
  id : String
  sync : SyncMode
  deriving DecidableEq

/-- JS truthiness of an optional string: `undefined` and `""` are falsy. -/
def truthy : Option String → Bool
  | none => false
  | some s => !(s == "")

/-- JS `a ||= b` as a value: keep `a` when truthy, otherwise take `b`. -/
def orElseJS (a b : Option String) : Option String :=
  if truthy a then a else b

/-- The collision branch of `addUser`: mutate the stored entry with
`old.user.displayName ||= info.user.displayName` and
`old.user.knownName ||= info.user.knownName`; `old.sync` is untouched. -/
def mergeUser (old info : SyncUserOptions) : SyncUserOptions :=
  { old with
    user := { old.user with
      displayName := orElseJS old.user.displayName info.user.displayName,
      knownName := orElseJS old.user.knownName info.user.knownName } }

/-- The `addUser` closure of `Sync.sync` over the `usersToSync` map,
modelled as an association list keyed by the user id in insertion order:
a new id is appended, an existing id's entry is merged in place. -/
def addUser : List (String × SyncUserOptions) → SyncUserOptions → List (String × SyncUserOptions)
  | [], info => [(info.user.id, info)]
  | p :: rest, info =>
    if p.1 == info.user.id then (p.1, mergeUser p.2 info) :: rest
    else p :: addUser rest info

/-- Discovery of one directly configured user inside `Sync.sync`: resolve
the latest profile (throwing when no server has it), emit the direct task,
and, when `sync.follows` is set, one task per followed user carrying the
follower's name for them and inheriting the parent's sync mode. -/
def discoverUser (gp : String → String → Option Profile) (servers : List ServerInfo)
    (u : SyncUserOpts) : Except String (List SyncUserOptions) :=
  match syncLatestProfile gp servers u.id with
  | none => .error ("Could not load user UserID " ++ u.id)
  | some profile =>
    .ok ({ user := { id := u.id, displayName := profile.displayName }, sync := u.sync } ::
      (if u.sync.follows then
        profile.follows.map (fun f =>
          { user := { id := f.userBytes, knownName := f.displayName }, sync := u.sync })
      else []))

/-- The sequence of `addUser` calls performed by the discovery loop of
`Sync.sync`, in order; the first user whose profile is nowhere to be found
throws and aborts the sequence. -/
def syncCollectSeq (gp : String → String → Option Profile) (servers : List ServerInfo) :
    List SyncUserOpts → Except String (List SyncUserOptions)
  | [] => .ok []
  | u :: rest =>
    match discoverUser gp servers u with
    | .error e => .error e
    | .ok l =>
      match syncCollectSeq gp servers rest with
      | .error e => .error e
      | .ok ls => .ok (l ++ ls)

/-- The discovery phase of `Sync.sync`: the `usersToSync` map after all
`addUser` calls, or the thrown error. -/
def syncCollect (gp : String → String → Option Profile) (servers : List ServerInfo)
    (users : List SyncUserOpts) : Except String (List (String × SyncUserOptions)) :=
  match syncCollectSeq gp servers users with
  | .error e => .error e
  | .ok infos => .ok (infos.foldl addUser [])

/-- Initial per-server cursor states for one user, from `getUserItems`. -/
def userStates (gui : String → String → List ItemRef) (servers : List ServerInfo)
    (uid : String) : List SrvState :=
  servers.map (fun s => ⟨s, (gui s.url uid).map (fun i => i.signature), gui s.url uid⟩)

/-- `Sync.syncUser` for one collected task: run the merge loop over the
configured servers (fuel `totalRemaining + 1` provably suffices). -/
def syncUserTask (fetch : String → String → Sig → Option Bytes)
    (put : String → String → Sig → Bytes → Bool)
    (gui : String → String → List ItemRef) (servers : List ServerInfo)
    (opts : SyncUserOptions) : Option RunOut :=
  runSync fetch put opts.user.id opts.sync
    (totalRemaining (userStates gui servers opts.user.id) + 1) 0
    (userStates gui servers opts.user.id) [] []

/-- `Sync.sync` end to end: collect the task map (a thrown discovery error
aborts the whole run before any user is synced), then sync every collected
task. -/
def syncTop (gp : String → String → Option Profile)
    (gui : String → String → List ItemRef)
    (fetch : String → String → Sig → Option Bytes)
    (put : String → String → Sig → Bytes → Bool)
    (servers : List ServerInfo) (users : List SyncUserOpts) :
    Except String (List (Option RunOut)) :=
  match syncCollect gp servers users with
  | .error e => .error e
  | .ok m => .ok (m.map (fun p => syncUserTask fetch put gui servers p.2))

/-- Each cursor's unconsumed items are sorted newest first
(non-increasing timestamps): the Item Source ordering contract. -/
@[reducible] def sortedStates (states : List SrvState) : Prop :=
  ∀ s ∈ states, List.Chain' (fun a b => b.timestampMsUtc ≤ a.timestampMsUtc) s.remaining

/-- Each cursor's unconsumed items have strictly decreasing timestamps. -/
@[reducible] def strictStates (states : List SrvState) : Prop :=
  ∀ s ∈ states, List.Pairwise (fun a b => b.timestampMsUtc < a.timestampMsUtc) s.remaining

/-- Any two items bearing the same timestamp are the identical record. -/
@[reducible] def sameTsSameSig (states : List SrvState) : Prop :=
  ∀ s ∈ states, ∀ t ∈ states, ∀ x ∈ s.remaining, ∀ y ∈ t.remaining,
    x.timestampMsUtc = y.timestampMsUtc → x.signature = y.signature

/-- No cursor lists the same item twice. -/
@[reducible] def nodupStates (states : List SrvState) : Prop :=
  ∀ s ∈ states, s.remaining.Nodup

/-- Every item a server still lists is in that server's item set. -/
@[reducible] def storeInv (states : List SrvState) : Prop :=
  ∀ s ∈ states, ∀ y ∈ s.remaining, y.signature ∈ s.store

/-- All items of all configured servers, as observed at the start of a run. -/
def allItems (input : List (ServerInfo × List ItemRef)) : List ItemRef :=
  (input.map (fun p => p.2)).flatten

/-- Reachability invariant of the convergence argument: every item of `U` is
still ahead of some cursor, or already sits in every destination's item
set. -/
@[reducible] def reachInv (U : List ItemRef) (states : List SrvState) : Prop :=
  ∀ x ∈ U, (∃ s ∈ states, x ∈ s.remaining) ∨
    (∀ d ∈ states, d.server.isDest = true → x.signature ∈ d.store)

/-- Every `getItemBytes` call succeeds. -/
def fetchOk (fetch : String → String → Sig → Option Bytes) : Prop :=
  ∀ url uid sig, (fetch url uid sig).isSome = true

/-- Every `putItem` call succeeds. -/
def putOk (put : String → String → Sig → Bytes → Bool) : Prop :=
  ∀ url uid sig b, put url uid sig b = true

theorem foldl_max_or (l : List Int) : ∀ a : Int, l.foldl max a = a ∨ l.foldl max a ∈ l := by
  induction l with
  | nil => intro a; left; rfl
  | cons b l ih =>
    intro a
    simp only [List.foldl_cons]
    rcases ih (max a b) with h | h
    · rcases max_choice a b with hab | hab
      · left; rw [h, hab]
      · right; rw [h, hab]; exact List.mem_cons_self _ _
    · right; exact List.mem_cons_of_mem _ h

theorem le_foldl_max (l : List Int) : ∀ a x : Int, x = a ∨ x ∈ l → x ≤ l.foldl max a := by
  induction l with
  | nil =>
    rintro a x (rfl | h)
    · exact le_refl x
    · cases h
  | cons b l ih =>
    rintro a x (rfl | h)
    · exact le_trans (le_max_left x b) (ih (max x b) (max x b) (Or.inl rfl))
    · rcases List.mem_cons.mp h with rfl | h
      · exact le_trans (le_max_right a x) (ih (max a x) (max a x) (Or.inl rfl))
      · exact ih (max a b) x (Or.inr h)

theorem maxList_mem {l : List Int} (h : l ≠ []) : maxList l ∈ l := by
  cases l with
  | nil => exact absurd rfl h
  | cons a l =>
    rcases foldl_max_or l a with h1 | h1
    · rw [maxList, h1]; exact List.mem_cons_self _ _
    · rw [maxList]; exact List.mem_cons_of_mem _ h1

theorem le_maxList {l : List Int} {x : Int} (h : x ∈ l) : x ≤ maxList l := by
  cases l with
  | nil => cases h
  | cons a l =>
    rcases List.mem_cons.mp h with rfl | h1
    · exact le_foldl_max l x x (Or.inl rfl)
    · exact le_foldl_max l a x (Or.inr h1)

theorem length_filter_lt (p : Int → Bool) (l : List Int) (a : Int)
    (ha : a ∈ l) (hpa : p a = false) : (l.filter p).length < l.length := by
  induction l with
  | nil => cases ha
  | cons b l ih =>
    rcases List.mem_cons.mp ha with rfl | ha
    · rw [List.filter_cons_of_neg (by simp [hpa])]
      exact Nat.lt_succ_of_le (List.length_filter_le _ _)
    · by_cases hb : p b
      · rw [List.filter_cons_of_pos hb]
        exact Nat.succ_lt_succ (ih ha)
      · rw [List.filter_cons_of_neg (by simp [hb])]
        exact Nat.lt_succ_of_lt (ih ha)

theorem maxList_not_kept (l : List Int) :
    (fun x => !(x == maxList l)) (maxList l) = false := by
  simp

theorem peelFuel_congr : ∀ f1 f2 : Nat, ∀ l : List Int,
    l.length ≤ f1 → l.length ≤ f2 → peelFuel f1 l = peelFuel f2 l := by
  intro f1
  induction f1 with
  | zero =>
    intro f2 l h1 _
    have hl : l = [] := List.length_eq_zero.mp (Nat.le_zero.mp h1)
    subst hl
    cases f2 with
    | zero => rfl
    | succ f2 => simp [peelFuel]
  | succ f1 ih =>
    intro f2 l h1 h2
    cases f2 with
    | zero =>
      have hl : l = [] := List.length_eq_zero.mp (Nat.le_zero.mp h2)
      subst hl
      simp [peelFuel]
    | succ f2 =>
      simp only [peelFuel]
      by_cases hl : l.isEmpty
      · simp [hl]
      · simp only [hl, Bool.false_eq_true, if_false]
        have hne : l ≠ [] := by
          intro h; subst h; simp at hl
        have hlt : (l.filter (fun x => !(x == maxList l))).length < l.length :=
          length_filter_lt _ l (maxList l) (maxList_mem hne) (maxList_not_kept l)
        have e1 : (l.filter (fun x => !(x == maxList l))).length ≤ f1 :=
          Nat.le_of_lt_succ (Nat.lt_of_lt_of_le hlt h1)
        have e2 : (l.filter (fun x => !(x == maxList l))).length ≤ f2 :=
          Nat.le_of_lt_succ (Nat.lt_of_lt_of_le hlt h2)
        rw [ih f2 _ e1 e2]

theorem peel_cons {l : List Int} (h : l ≠ []) :
    peel l = maxList l :: peel (l.filter (fun x => !(x == maxList l))) := by
  have hlen : l.length = (l.length - 1) + 1 := by
    cases l with
    | nil => exact absurd rfl h
    | cons a l => simp
  rw [peel, hlen]
  simp only [peelFuel]
  have hne : l.isEmpty = false := by
    cases l with
    | nil => exact absurd rfl h
    | cons a l => rfl
  simp only [hne, Bool.false_eq_true, if_false]
  have hlt : (l.filter (fun x => !(x == maxList l))).length < l.length :=
    length_filter_lt _ l (maxList l) (maxList_mem h) (maxList_not_kept l)
  rw [peel, peelFuel_congr (l.length - 1) _ _ (by omega) (le_refl _)]

theorem timestampsOf_eq_nil {states : List SrvState} :
    timestampsOf states = [] ↔ ∀ s ∈ states, s.remaining = [] := by
  rw [timestampsOf, List.filterMap_eq_nil_iff]
  constructor
  · intro h s hs
    have := h s hs
    rw [peekTs, Option.map_eq_none'] at this
    exact List.head?_eq_none_iff.mp this
  · intro h s hs
    rw [peekTs, Option.map_eq_none']
    exact List.head?_eq_none_iff.mpr (h s hs)

theorem mem_timestampsOf {states : List SrvState} {t : Int} :
    t ∈ timestampsOf states ↔ ∃ s ∈ states, peekTs s = some t := by
  rw [timestampsOf, List.mem_filterMap]

theorem isMatch_true_iff {tip : Int} {s : SrvState} :
    isMatch tip s = true ↔ peekTs s = some tip := by
  rw [isMatch, peekTs]
  cases h : s.remaining.head? with
  | none => simp
  | some i => simp [beq_iff_eq]

theorem isMatch_congr {tip : Int} {s t : SrvState} (h : s.remaining = t.remaining) :
    isMatch tip s = isMatch tip t := by
  rw [isMatch, isMatch, h]

theorem tipOf_mem {states : List SrvState} (h : timestampsOf states ≠ []) :
    tipOf states ∈ timestampsOf states :=
  maxList_mem h

theorem le_tipOf {states : List SrvState} {t : Int} (h : t ∈ timestampsOf states) :
    t ≤ tipOf states :=
  le_maxList h

theorem matchesOf_ne_nil {states : List SrvState} (h : timestampsOf states ≠ []) :
    matchesOf states ≠ [] := by
  obtain ⟨s, hs, hpeek⟩ := mem_timestampsOf.mp (tipOf_mem h)
  have hm : isMatch (tipOf states) s = true := isMatch_true_iff.mpr hpeek
  have : s ∈ matchesOf states := List.mem_filter.mpr ⟨hs, hm⟩
  exact List.ne_nil_of_mem this

theorem mem_of_mem_matchesOf {states : List SrvState} {s : SrvState}
    (h : s ∈ matchesOf states) : s ∈ states ∧ isMatch (tipOf states) s = true := by
  exact ⟨(List.mem_filter.mp h).1, (List.mem_filter.mp h).2⟩

theorem copyPush_states (put : String → String → Sig → Bytes → Bool) (uid : String)
    (sig : Sig) (bytes : Bytes) : ∀ (dests : List ServerInfo) (states : List SrvState),
    (copyPush put uid sig (some bytes) dests states).states =
      states.map (pushF put uid sig bytes dests) := by
  intro dests
  induction dests with
  | nil =>
    intro states
    simp only [copyPush, pushF]
    exact (List.map_id' states).symm
  | cons d rest ih =>
    intro states
    simp only [copyPush]
    by_cases hp : put d.url uid sig bytes
    · simp only [hp, if_true]
      rw [ih]
      simp only [pushTo, List.map_map]
      apply List.map_congr_left
      intro s _
      simp only [Function.comp_apply, pushF, hp, if_true]
    · simp only [hp, Bool.false_eq_true, if_false]
      have : ∀ s ∈ states, pushF put uid sig bytes (d :: rest) s = s := by
        intro s _
        simp only [pushF, hp, Bool.false_eq_true, if_false]
      rw [List.map_congr_left this, List.map_id' states]

theorem copyPush_none (put : String → String → Sig → Bytes → Bool) (uid : String)
    (sig : Sig) (dests : List ServerInfo) (states : List SrvState) :
    (copyPush put uid sig none dests states).states = states ∧
      (copyPush put uid sig none dests states).thrown = none := by
  cases dests with
  | nil => exact ⟨rfl, rfl⟩
  | cons d rest => exact ⟨rfl, rfl⟩

theorem pushF_server (put : String → String → Sig → Bytes → Bool) (uid : String)
    (sig : Sig) (bytes : Bytes) : ∀ (dests : List ServerInfo) (s : SrvState),
    (pushF put uid sig bytes dests s).server = s.server := by
  intro dests
  induction dests with
  | nil => intro s; rfl
  | cons d rest ih =>
    intro s
    simp only [pushF]
    by_cases hp : put d.url uid sig bytes
    · simp only [hp, if_true]; rw [ih]
    · simp only [hp, Bool.false_eq_true, if_false]

theorem pushF_remaining (put : String → String → Sig → Bytes → Bool) (uid : String)
    (sig : Sig) (bytes : Bytes) : ∀ (dests : List ServerInfo) (s : SrvState),
    (pushF put uid sig bytes dests s).remaining = s.remaining := by
  intro dests
  induction dests with
  | nil => intro s; rfl
  | cons d rest ih =>
    intro s
    simp only [pushF]
    by_cases hp : put d.url uid sig bytes
    · simp only [hp, if_true]; rw [ih]
    · simp only [hp, Bool.false_eq_true, if_false]

theorem pushF_store_mono (put : String → String → Sig → Bytes → Bool) (uid : String)
    (sig : Sig) (bytes : Bytes) : ∀ (dests : List ServerInfo) (s : SrvState) (x : Sig),
    x ∈ s.store → x ∈ (pushF put uid sig bytes dests s).store := by
  intro dests
  induction dests with
  | nil => intro s x hx; exact hx
  | cons d rest ih =>
    intro s x hx
    simp only [pushF]
    by_cases hp : put d.url uid sig bytes
    · simp only [hp, if_true]
      apply ih
      by_cases hu : s.server.url == d.url
      · simp only [hu, if_true]; exact List.mem_cons_of_mem _ hx
      · simp only [hu, Bool.false_eq_true, if_false]; exact hx
    · simp only [hp, Bool.false_eq_true, if_false]; exact hx

theorem pushF_pushes (put : String → String → Sig → Bytes → Bool) (uid : String)
    (sig : Sig) (bytes : Bytes) : ∀ (dests : List ServerInfo) (s : SrvState),
    (∀ d ∈ dests, put d.url uid sig bytes = true) →
    ∀ d ∈ dests, d.url = s.server.url → sig ∈ (pushF put uid sig bytes dests s).store := by
  intro dests
  induction dests with
  | nil => intro s _ d hd; cases hd
  | cons d0 rest ih =>
    intro s hputs d hd hurl
    have hp0 : put d0.url uid sig bytes = true := hputs d0 (List.mem_cons_self _ _)
    simp only [pushF, hp0, if_true]
    rcases List.mem_cons.mp hd with rfl | hd
    · have hu : s.server.url == d.url := by rw [hurl]; exact beq_self_eq_true _
      simp only [hu, if_true]
      apply pushF_store_mono
      exact List.mem_cons_self _ _
    · exact ih { s with store := if s.server.url == d0.url then sig :: s.store else s.store }
        (fun d hd => hputs d (List.mem_cons_of_mem _ hd)) d hd hurl

theorem copyPush_thrown (put : String → String → Sig → Bytes → Bool) (uid : String)
    (sig : Sig) (item : Option Bytes) : ∀ (dests : List ServerInfo) (states : List SrvState),
    (copyPush put uid sig item dests states).thrown = none ∨
      (copyPush put uid sig item dests states).thrown = some "putItem failed" := by
  intro dests
  induction dests with
  | nil => intro states; left; rfl
  | cons d rest ih =>
    intro states
    cases item with
    | none => left; rfl
    | some bytes =>
      simp only [copyPush]
      by_cases hp : put d.url uid sig bytes
      · simp only [hp, if_true]
        exact ih _
      · simp only [hp, Bool.false_eq_true, if_false]
        trivial

theorem copyPush_thrown_none (put : String → String → Sig → Bytes → Bool) (uid : String)
    (sig : Sig) (bytes : Bytes) (hput : putOk put) :
    ∀ (dests : List ServerInfo) (states : List SrvState),
    (copyPush put uid sig (some bytes) dests states).thrown = none := by
  intro dests
  induction dests with
  | nil => intro states; rfl
  | cons d rest ih =>
    intro states
    simp only [copyPush, hput d.url uid sig bytes, if_true]
    exact ih _

theorem advF_server (tip : Int) (s : SrvState) : (advF tip s).server = s.server := by
  rw [advF]
  by_cases h : isMatch tip s
  · simp only [h, if_true]
  · simp only [h, Bool.false_eq_true, if_false]

theorem advF_store (tip : Int) (s : SrvState) : (advF tip s).store = s.store := by
  rw [advF]
  by_cases h : isMatch tip s
  · simp only [h, if_true]
  · simp only [h, Bool.false_eq_true, if_false]

theorem advF_remaining (tip : Int) (s : SrvState) :
    (advF tip s).remaining = (if isMatch tip s then s.remaining.tail else s.remaining) := by
  rw [advF]
  by_cases h : isMatch tip s
  · simp only [h, if_true]
  · simp only [h, Bool.false_eq_true, if_false]

theorem copyItem_form (fetch : String → String → Sig → Option Bytes)
    (put : String → String → Sig → Bytes → Bool) (uid : String) (sig : Sig)
    (sources destinations : List ServerInfo) (states : List SrvState) :
    ∃ g : SrvState → SrvState,
      (copyItem fetch put uid sig sources destinations states).states = states.map g ∧
      ∀ s : SrvState, (g s).server = s.server ∧ (g s).remaining = s.remaining ∧
        ∀ x ∈ s.store, x ∈ (g s).store := by
  rw [copyItem]
  by_cases hd : (destinations.filter (fun d => d.isDest)).isEmpty
  · refine ⟨fun s => s, ?_, ?_⟩
    · simp only [hd, if_true]
      exact (List.map_id' states).symm
    · intro s; exact ⟨rfl, rfl, fun x hx => hx⟩
  · simp only [hd, Bool.false_eq_true, if_false]
    cases hc : choose sources with
    | none =>
      refine ⟨fun s => s, (List.map_id' states).symm, ?_⟩
      intro s; exact ⟨rfl, rfl, fun x hx => hx⟩
    | some source =>
      cases hfetch : fetch source.url uid sig with
      | none =>
        refine ⟨fun s => s, ?_, ?_⟩
        · simp only [hfetch]
          rw [(copyPush_none put uid sig _ states).1]
          exact (List.map_id' states).symm
        · intro s; exact ⟨rfl, rfl, fun x hx => hx⟩
      | some bytes =>
        refine ⟨pushF put uid sig bytes (destinations.filter (fun d => d.isDest)), ?_, ?_⟩
        · simp only [hfetch]
          exact copyPush_states put uid sig bytes _ states
        · intro s
          exact ⟨pushF_server put uid sig bytes _ s, pushF_remaining put uid sig bytes _ s,
            fun x hx => pushF_store_mono put uid sig bytes _ s x hx⟩

theorem copyItem_success_g (fetch : String → String → Sig → Option Bytes)
    (put : String → String → Sig → Bytes → Bool) (uid : String) (sig : Sig)
    (sources destinations : List ServerInfo) (states : List SrvState)
    (hf : fetchOk fetch) (hp : putOk put) (hsrc : sources ≠ []) :
    (copyItem fetch put uid sig sources destinations states).thrown = none ∧
    ∃ g : SrvState → SrvState,
      (copyItem fetch put uid sig sources destinations states).states = states.map g ∧
      ∀ s : SrvState, (g s).server = s.server ∧ (g s).remaining = s.remaining ∧
        (∀ x ∈ s.store, x ∈ (g s).store) ∧
        (∀ d ∈ destinations.filter (fun d => d.isDest), d.url = s.server.url →
          sig ∈ (g s).store) := by
  rw [copyItem]
  by_cases hd : (destinations.filter (fun d => d.isDest)).isEmpty
  · have hfil : destinations.filter (fun d => d.isDest) = [] := List.isEmpty_iff.mp hd
    refine ⟨?_, fun s => s, ?_, ?_⟩
    · simp only [hd, if_true]
    · simp only [hd, if_true]
      exact (List.map_id' states).symm
    · intro s
      refine ⟨rfl, rfl, fun x hx => hx, ?_⟩
      intro d hdmem
      rw [hfil] at hdmem
      cases hdmem
  · simp only [hd, Bool.false_eq_true, if_false]
    cases hc : choose sources with
    | none =>
      rw [choose] at hc
      cases sources with
      | nil => exact absurd rfl hsrc
      | cons a l => cases hc
    | some source =>
      cases hfetch : fetch source.url uid sig with
      | none =>
        have := hf source.url uid sig
        rw [hfetch] at this
        cases this
      | some bytes =>
        refine ⟨?_, pushF put uid sig bytes (destinations.filter (fun d => d.isDest)), ?_, ?_⟩
        · simp only [hfetch]
          exact copyPush_thrown_none put uid sig bytes hp _ states
        · simp only [hfetch]
          exact copyPush_states put uid sig bytes _ states
        · intro s
          refine ⟨pushF_server put uid sig bytes _ s, pushF_remaining put uid sig bytes _ s,
            fun x hx => pushF_store_mono put uid sig bytes _ s x hx, ?_⟩
          intro d hdmem hurl
          exact pushF_pushes put uid sig bytes _ s
            (fun d _ => hp d.url uid sig bytes) d hdmem hurl

theorem copyItem_thrown_vals (fetch : String → String → Sig → Option Bytes)
    (put : String → String → Sig → Bytes → Bool) (uid : String) (sig : Sig)
    (sources destinations : List ServerInfo) (states : List SrvState) :
    (copyItem fetch put uid sig sources destinations states).thrown = none ∨
    (copyItem fetch put uid sig sources destinations states).thrown =
      some "TypeError: sources is empty" ∨
    (copyItem fetch put uid sig sources destinations states).thrown =
      some "putItem failed" := by
  rw [copyItem]
  by_cases hd : (destinations.filter (fun d => d.isDest)).isEmpty
  · simp [hd]
  · simp only [hd, Bool.false_eq_true, if_false]
    cases hc : choose sources with
    | none => simp
    | some source =>
      cases hfetch : fetch source.url uid sig with
      | none =>
        left
        simp only [hfetch]
        exact (copyPush_none put uid sig _ states).2
      | some bytes =>
        rcases copyPush_thrown put uid sig (some bytes)
            (destinations.filter (fun d => d.isDest)) states with h | h
        · left; simp only [hfetch]; exact h
        · right; right; simp only [hfetch]; exact h

theorem matches_head_pending {states : List SrvState} (hts : timestampsOf states ≠ []) :
    ∃ m0 i, (matchesOf states).head? = some m0 ∧ m0.remaining.head? = some i ∧
      i.timestampMsUtc = tipOf states := by
  have hne := matchesOf_ne_nil hts
  cases hm : matchesOf states with
  | nil => exact absurd hm hne
  | cons m ms =>
    have hmem : m ∈ matchesOf states := by rw [hm]; exact List.mem_cons_self _ _
    obtain ⟨-, hmatch⟩ := mem_of_mem_matchesOf hmem
    have hpeek := isMatch_true_iff.mp hmatch
    rw [peekTs] at hpeek
    cases hh : m.remaining.head? with
    | none => rw [hh] at hpeek; cases hpeek
    | some i =>
      rw [hh] at hpeek
      simp only [Option.map_some', Option.some_inj] at hpeek
      exact ⟨m, i, rfl, hh, hpeek⟩

theorem syncStep_eq_of (fetch : String → String → Sig → Option Bytes)
    (put : String → String → Sig → Bytes → Bool) (uid : String)
    (states : List SrvState) (m0 : SrvState) (i : ItemRef)
    (hts : (timestampsOf states).isEmpty = false)
    (hm : (matchesOf states).head? = some m0)
    (hi : m0.remaining.head? = some i) :
    syncStep fetch put uid states =
      (match (copyItem fetch put uid i.signature ((matchesOf states).map (fun s => s.server))
          ((othersOf states).map (fun s => s.server)) states).thrown with
      | some msg =>
        .err msg
          (copyItem fetch put uid i.signature ((matchesOf states).map (fun s => s.server))
            ((othersOf states).map (fun s => s.server)) states).events
          (copyItem fetch put uid i.signature ((matchesOf states).map (fun s => s.server))
            ((othersOf states).map (fun s => s.server)) states).states
      | none =>
        .stepped (tipOf states)
          ⟨i.signature, (matchesOf states).map (fun s => s.server),
            (othersOf states).map (fun s => s.server)⟩
          (copyItem fetch put uid i.signature ((matchesOf states).map (fun s => s.server))
            ((othersOf states).map (fun s => s.server)) states).events
          ((copyItem fetch put uid i.signature ((matchesOf states).map (fun s => s.server))
            ((othersOf states).map (fun s => s.server)) states).states.map
            (advF (tipOf states)))) := by
  rw [syncStep, hts]
  simp only [Bool.false_eq_true, if_false, hm, hi]

theorem head_some_ne_nil {α : Type} {l : List α} {a : α} (h : l.head? = some a) : l ≠ [] := by
  intro hl
  rw [hl] at h
  cases h

theorem mem_of_head {α : Type} {l : List α} {a : α} (h : l.head? = some a) : a ∈ l := by
  cases l with
  | nil => cases h
  | cons b l =>
    simp only [List.head?_cons, Option.some_inj] at h
    rw [← h]
    exact List.mem_cons_self _ _

theorem syncStep_finished {fetch : String → String → Sig → Option Bytes}
    {put : String → String → Sig → Bytes → Bool} {uid : String} {states : List SrvState}
    (h : timestampsOf states = []) : syncStep fetch put uid states = .finished states := by
  rw [syncStep]
  simp [h]

theorem syncStep_stepped_inv {fetch : String → String → Sig → Option Bytes}
    {put : String → String → Sig → Bytes → Bool} {uid : String} {states : List SrvState}
    {tip : Int} {call : CopyCall} {ev : List CopyEvent} {st2 : List SrvState}
    (h : syncStep fetch put uid states = .stepped tip call ev st2) :
    timestampsOf states ≠ [] ∧ tip = tipOf states ∧
    ∃ m0 i,
      (matchesOf states).head? = some m0 ∧ m0.remaining.head? = some i ∧
      i.timestampMsUtc = tipOf states ∧
      call = ⟨i.signature, (matchesOf states).map (fun s => s.server),
        (othersOf states).map (fun s => s.server)⟩ ∧
      (copyItem fetch put uid i.signature ((matchesOf states).map (fun s => s.server))
        ((othersOf states).map (fun s => s.server)) states).thrown = none ∧
      ev = (copyItem fetch put uid i.signature ((matchesOf states).map (fun s => s.server))
        ((othersOf states).map (fun s => s.server)) states).events ∧
      st2 = ((copyItem fetch put uid i.signature ((matchesOf states).map (fun s => s.server))
        ((othersOf states).map (fun s => s.server)) states).states).map (advF (tipOf states)) := by
  have hts : timestampsOf states ≠ [] := by
    intro hnil
    rw [syncStep_finished hnil] at h
    cases h
  have htsb : (timestampsOf states).isEmpty = false := by
    cases hl : timestampsOf states with
    | nil => exact absurd hl hts
    | cons a l => rfl
  obtain ⟨m0, i, hm, hi, hip⟩ := matches_head_pending hts
  rw [syncStep_eq_of fetch put uid states m0 i htsb hm hi] at h
  cases hth : (copyItem fetch put uid i.signature ((matchesOf states).map (fun s => s.server))
      ((othersOf states).map (fun s => s.server)) states).thrown with
  | some msg => rw [hth] at h; cases h
  | none =>
    rw [hth] at h
    injection h with h1 h2 h3 h4
    exact ⟨hts, h1.symm, m0, i, hm, hi, hip, h2.symm, hth, h3.symm, h4.symm⟩

theorem syncStep_stepped_form {fetch : String → String → Sig → Option Bytes}
    {put : String → String → Sig → Bytes → Bool} {uid : String} {states : List SrvState}
    {tip : Int} {call : CopyCall} {ev : List CopyEvent} {st2 : List SrvState}
    (h : syncStep fetch put uid states = .stepped tip call ev st2) :
    tip = tipOf states ∧
    (∃ s ∈ states, isMatch (tipOf states) s = true ∧ s.remaining ≠ []) ∧
    ∃ g : SrvState → SrvState, st2 = states.map g ∧
      ∀ s : SrvState, (g s).server = s.server ∧
        (g s).remaining = (if isMatch (tipOf states) s then s.remaining.tail else s.remaining) ∧
        (∀ x ∈ s.store, x ∈ (g s).store) := by
  obtain ⟨hts, htip, m0, i, hm, hi, hip, hcall, hth, hev, hst⟩ := syncStep_stepped_inv h
  have hm0mem : m0 ∈ matchesOf states := mem_of_head hm
  obtain ⟨hm0s, hm0match⟩ := mem_of_mem_matchesOf hm0mem
  have hm0ne : m0.remaining ≠ [] := head_some_ne_nil hi
  obtain ⟨g0, hg0eq, hg0⟩ := copyItem_form fetch put uid i.signature
    ((matchesOf states).map (fun s => s.server))
    ((othersOf states).map (fun s => s.server)) states
  refine ⟨htip, ⟨m0, hm0s, hm0match, hm0ne⟩,
    fun s => advF (tipOf states) (g0 s), ?_, ?_⟩
  · rw [hst, hg0eq, List.map_map]
    rfl
  · intro s
    obtain ⟨hsv, hrm, hstore⟩ := hg0 s
    have him : isMatch (tipOf states) (g0 s) = isMatch (tipOf states) s := isMatch_congr hrm
    refine ⟨?_, ?_, ?_⟩
    · rw [advF_server, hsv]
    · rw [advF_remaining, him, hrm]
    · intro x hx
      rw [advF_store]
      exact hstore x hx

theorem syncStep_stepped_success_form {fetch : String → String → Sig → Option Bytes}
    {put : String → String → Sig → Bytes → Bool} {uid : String} {states : List SrvState}
    {tip : Int} {call : CopyCall} {ev : List CopyEvent} {st2 : List SrvState}
    (hf : fetchOk fetch) (hp : putOk put)
    (h : syncStep fetch put uid states = .stepped tip call ev st2) :
    tip = tipOf states ∧
    ∃ m0 i g,
      (matchesOf states).head? = some m0 ∧ m0.remaining.head? = some i ∧
      i.timestampMsUtc = tipOf states ∧ st2 = states.map g ∧
      ∀ s : SrvState, (g s).server = s.server ∧
        (g s).remaining = (if isMatch (tipOf states) s then s.remaining.tail else s.remaining) ∧
        (∀ x ∈ s.store, x ∈ (g s).store) ∧
        (∀ d ∈ ((othersOf states).map (fun s => s.server)).filter (fun d => d.isDest),
          d.url = s.server.url → i.signature ∈ (g s).store) := by
  obtain ⟨hts, htip, m0, i, hm, hi, hip, hcall, hth, hev, hst⟩ := syncStep_stepped_inv h
  have hsrc : (matchesOf states).map (fun s => s.server) ≠ [] := by
    intro hnil
    have := head_some_ne_nil hm
    rw [List.map_eq_nil_iff] at hnil
    exact this hnil
  obtain ⟨hthn, g0, hg0eq, hg0⟩ := copyItem_success_g fetch put uid i.signature
    ((matchesOf states).map (fun s => s.server))
    ((othersOf states).map (fun s => s.server)) states hf hp hsrc
  refine ⟨htip, m0, i, fun s => advF (tipOf states) (g0 s), hm, hi, hip, ?_, ?_⟩
  · rw [hst, hg0eq, List.map_map]
    rfl
  · intro s
    obtain ⟨hsv, hrm, hstore, hpush⟩ := hg0 s
    have him : isMatch (tipOf states) (g0 s) = isMatch (tipOf states) s := isMatch_congr hrm
    refine ⟨?_, ?_, ?_, ?_⟩
    · rw [advF_server, hsv]
    · rw [advF_remaining, him, hrm]
    · intro x hx
      rw [advF_store]
      exact hstore x hx
    · intro d hd hurl
      rw [advF_store]
      exact hpush d hd hurl

theorem syncStep_no_err {fetch : String → String → Sig → Option Bytes}
    {put : String → String → Sig → Bytes → Bool} {uid : String} {states : List SrvState}
    (hf : fetchOk fetch) (hp : putOk put) :
    ∀ msg ev st, syncStep fetch put uid states ≠ .err msg ev st := by
  intro msg ev st h
  by_cases hts : timestampsOf states = []
  · rw [syncStep_finished hts] at h
    cases h
  · have htsb : (timestampsOf states).isEmpty = false := by
      cases hl : timestampsOf states with
      | nil => exact absurd hl hts
      | cons a l => rfl
    obtain ⟨m0, i, hm, hi, hip⟩ := matches_head_pending hts
    rw [syncStep_eq_of fetch put uid states m0 i htsb hm hi] at h
    have hsrc : (matchesOf states).map (fun s => s.server) ≠ [] := by
      intro hnil
      have := head_some_ne_nil hm
      rw [List.map_eq_nil_iff] at hnil
      exact this hnil
    obtain ⟨hthn, -⟩ := copyItem_success_g fetch put uid i.signature
      ((matchesOf states).map (fun s => s.server))
      ((othersOf states).map (fun s => s.server)) states hf hp hsrc
    rw [hthn] at h
    cases h

theorem sum_map_le_sum_map {α : Type} (l : List α) (f g : α → Nat)
    (hle : ∀ a ∈ l, f a ≤ g a) : (l.map f).sum ≤ (l.map g).sum := by
  induction l with
  | nil => exact le_refl 0
  | cons b l ih =>
    simp only [List.map_cons, List.sum_cons]
    exact Nat.add_le_add (hle b (List.mem_cons_self _ _))
      (ih (fun a ha => hle a (List.mem_cons_of_mem _ ha)))

theorem sum_map_lt_sum_map {α : Type} (l : List α) (f g : α → Nat)
    (hle : ∀ a ∈ l, f a ≤ g a) (a0 : α) (ha0 : a0 ∈ l) (hlt : f a0 < g a0) :
    (l.map f).sum < (l.map g).sum := by
  induction l with
  | nil => cases ha0
  | cons b l ih =>
    simp only [List.map_cons, List.sum_cons]
    rcases List.mem_cons.mp ha0 with rfl | ha0
    · have hrest := sum_map_le_sum_map l f g (fun a ha => hle a (List.mem_cons_of_mem _ ha))
      omega
    · have hb := hle b (List.mem_cons_self _ _)
      have := ih (fun a ha => hle a (List.mem_cons_of_mem _ ha)) ha0
      omega

theorem tail_length_lt {α : Type} {l : List α} (h : l ≠ []) : l.tail.length < l.length := by
  cases l with
  | nil => exact absurd rfl h
  | cons a l => simp

theorem totalRemaining_lt_of_stepped {fetch : String → String → Sig → Option Bytes}
    {put : String → String → Sig → Bytes → Bool} {uid : String} {states : List SrvState}
    {tip : Int} {call : CopyCall} {ev : List CopyEvent} {st2 : List SrvState}
    (h : syncStep fetch put uid states = .stepped tip call ev st2) :
    totalRemaining st2 < totalRemaining states := by
  obtain ⟨-, ⟨s0, hs0, hs0m, hs0ne⟩, g, hst, hg⟩ := syncStep_stepped_form h
  rw [hst, totalRemaining, totalRemaining, List.map_map]
  have hle : ∀ a ∈ states,
      ((fun s => s.remaining.length) ∘ g) a ≤ (fun (s : SrvState) => s.remaining.length) a := by
    intro a _
    obtain ⟨-, hrm, -⟩ := hg a
    simp only [Function.comp_apply, hrm]
    by_cases him : isMatch (tipOf states) a
    · simp only [him, if_true]
      cases hrem : a.remaining with
      | nil => simp
      | cons i rest => simp
    · simp only [him, Bool.false_eq_true, if_false]
      exact le_refl _
  have hlt : ((fun s => s.remaining.length) ∘ g) s0 < (fun (s : SrvState) => s.remaining.length) s0 := by
    obtain ⟨-, hrm, -⟩ := hg s0
    simp only [Function.comp_apply, hrm, hs0m, if_true]
    exact tail_length_lt hs0ne
  exact sum_map_lt_sum_map states _ _ hle s0 hs0 hlt

theorem runSync_total {fetch : String → String → Sig → Option Bytes}
    {put : String → String → Sig → Bytes → Bool} {uid : String} {mode : SyncMode} :
    ∀ (fuel n : Nat) (states : List SrvState) (evAcc : List CopyEvent) (tipAcc : List Int),
    totalRemaining states < fuel →
    ∃ out, runSync fetch put uid mode fuel n states evAcc tipAcc = some out := by
  intro fuel
  induction fuel with
  | zero => intro n states _ _ h; omega
  | succ fuel ih =>
    intro n states evAcc tipAcc hfuel
    simp only [runSync]
    by_cases hm : moreToSync mode n = true
    · simp only [hm, if_true]
      cases hstep : syncStep fetch put uid states with
      | finished st => exact ⟨_, rfl⟩
      | err msg ev st => exact ⟨_, rfl⟩
      | stepped tip call ev st =>
        apply ih
        have := totalRemaining_lt_of_stepped hstep
        omega
    · simp only [hm, Bool.false_eq_true, if_false]
      exact ⟨_, rfl⟩

theorem syncStep_finished_inv {fetch : String → String → Sig → Option Bytes}
    {put : String → String → Sig → Bytes → Bool} {uid : String}
    {states st : List SrvState}
    (h : syncStep fetch put uid states = .finished st) :
    timestampsOf states = [] ∧ st = states := by
  by_cases hts : timestampsOf states = []
  · rw [syncStep_finished hts] at h
    injection h with h1
    exact ⟨hts, h1.symm⟩
  · have htsb : (timestampsOf states).isEmpty = false := by
      cases hl : timestampsOf states with
      | nil => exact absurd hl hts
      | cons a l => rfl
    obtain ⟨m0, i, hm, hi, hip⟩ := matches_head_pending hts
    rw [syncStep_eq_of fetch put uid states m0 i htsb hm hi] at h
    cases hth : (copyItem fetch put uid i.signature ((matchesOf states).map (fun s => s.server))
        ((othersOf states).map (fun s => s.server)) states).thrown with
    | some msg => rw [hth] at h; cases h
    | none => rw [hth] at h; cases h

theorem runSync_exit {fetch : String → String → Sig → Option Bytes}
    {put : String → String → Sig → Bytes → Bool} {uid : String} {mode : SyncMode}
    (hf : fetchOk fetch) (hp : putOk put) :
    ∀ (fuel n : Nat) (states : List SrvState) (evAcc : List CopyEvent) (tipAcc : List Int),
    totalRemaining states < fuel →
    ∃ out, runSync fetch put uid mode fuel n states evAcc tipAcc = some out ∧
      out.error = none ∧
      (timestampsOf out.states = [] ∨ moreToSync mode out.synced = false) := by
  intro fuel
  induction fuel with
  | zero => intro n states _ _ h; omega
  | succ fuel ih =>
    intro n states evAcc tipAcc hfuel
    simp only [runSync]
    by_cases hm : moreToSync mode n = true
    · simp only [hm, if_true]
      cases hstep : syncStep fetch put uid states with
      | finished st =>
        obtain ⟨hts, hst⟩ := syncStep_finished_inv hstep
        refine ⟨⟨st, evAcc, n, tipAcc, none⟩, rfl, rfl, Or.inl ?_⟩
        rw [hst]
        exact hts
      | err msg ev st => exact absurd hstep (syncStep_no_err hf hp msg ev st)
      | stepped tip call ev st =>
        apply ih
        have := totalRemaining_lt_of_stepped hstep
        omega
    · simp only [hm, Bool.false_eq_true, if_false]
      refine ⟨⟨states, evAcc, n, tipAcc, none⟩, rfl, rfl, Or.inr ?_⟩
      exact Bool.eq_false_iff.mpr hm

theorem stepped_sorted_bound {fetch : String → String → Sig → Option Bytes}
    {put : String → String → Sig → Bytes → Bool} {uid : String} {states : List SrvState}
    {tip : Int} {call : CopyCall} {ev : List CopyEvent} {st2 : List SrvState}
    (hsorted : sortedStates states)
    (h : syncStep fetch put uid states = .stepped tip call ev st2) :
    sortedStates st2 ∧ ∀ t ∈ timestampsOf st2, t ≤ tipOf states := by
  obtain ⟨htip, hex, g, hst, hg⟩ := syncStep_stepped_form h
  constructor
  · intro s2 hs2
    rw [hst] at hs2
    obtain ⟨s, hs, rfl⟩ := List.mem_map.mp hs2
    obtain ⟨-, hrm, -⟩ := hg s
    rw [hrm]
    by_cases him : isMatch (tipOf states) s
    · simp only [him, if_true]
      exact (hsorted s hs).tail
    · simp only [him, Bool.false_eq_true, if_false]
      exact hsorted s hs
  · intro t ht
    rw [hst] at ht
    obtain ⟨s2, hs2mem, hpeek⟩ := mem_timestampsOf.mp ht
    obtain ⟨s, hs, rfl⟩ := List.mem_map.mp hs2mem
    obtain ⟨-, hrm, -⟩ := hg s
    rw [peekTs, hrm] at hpeek
    by_cases him : isMatch (tipOf states) s
    · rw [if_pos him] at hpeek
      have hpm := isMatch_true_iff.mp him
      rw [peekTs] at hpm
      cases hrem : s.remaining with
      | nil => rw [hrem] at hpeek; cases hpeek
      | cons i0 rest =>
        rw [hrem] at hpm hpeek
        simp only [List.head?_cons, Option.map_some', Option.some_inj] at hpm
        simp only [List.tail_cons] at hpeek
        cases hh : rest.head? with
        | none => rw [hh] at hpeek; cases hpeek
        | some j =>
          rw [hh] at hpeek
          simp only [Option.map_some', Option.some_inj] at hpeek
          have hchain := hsorted s hs
          rw [hrem] at hchain
          have hrel := (List.chain'_cons'.mp hchain).1 j hh
          rw [← hpeek, ← hpm]
          exact hrel
    · rw [if_neg him] at hpeek
      have hmem : t ∈ timestampsOf states :=
        mem_timestampsOf.mpr ⟨s, hs, by rw [peekTs]; exact hpeek⟩
      exact le_tipOf hmem

theorem runSync_tips_chain {fetch : String → String → Sig → Option Bytes}
    {put : String → String → Sig → Bytes → Bool} {uid : String} {mode : SyncMode} :
    ∀ (fuel n : Nat) (states : List SrvState) (evAcc : List CopyEvent) (tipAcc : List Int)
      (b : Int), sortedStates states →
    (∀ t ∈ timestampsOf states, t ≤ b) →
    ∀ out, runSync fetch put uid mode fuel n states evAcc tipAcc = some out →
    ∃ suffix, out.tips = tipAcc ++ suffix ∧
      List.Chain' (fun x y => y ≤ x) suffix ∧ ∀ t ∈ suffix, t ≤ b := by
  intro fuel
  induction fuel with
  | zero => intro n states evAcc tipAcc b _ _ out hrun; cases hrun
  | succ fuel ih =>
    intro n states evAcc tipAcc b hsorted hb out hrun
    simp only [runSync] at hrun
    by_cases hm : moreToSync mode n = true
    · rw [if_pos hm] at hrun
      cases hstep : syncStep fetch put uid states with
      | finished st =>
        rw [hstep] at hrun
        injection hrun with hout
        refine ⟨[], ?_, List.chain'_nil, by intro t ht; cases ht⟩
        rw [← hout]
        simp
      | err msg ev st =>
        rw [hstep] at hrun
        injection hrun with hout
        refine ⟨[], ?_, List.chain'_nil, by intro t ht; cases ht⟩
        rw [← hout]
        simp
      | stepped tip call ev st =>
        rw [hstep] at hrun
        have hbound := stepped_sorted_bound hsorted hstep
        have htip : tip = tipOf states := (syncStep_stepped_form hstep).1
        have htiple : tip ≤ b := by
          have hts := (syncStep_stepped_inv hstep).1
          rw [htip]
          exact hb _ (tipOf_mem hts)
        have hb2 : ∀ t ∈ timestampsOf st, t ≤ tip := by
          intro t ht
          rw [htip]
          exact hbound.2 t ht
        obtain ⟨suffix, hsuf, hchain, hsufle⟩ :=
          ih (n + 1) st (evAcc ++ ev) (tipAcc ++ [tip]) tip hbound.1 hb2 out hrun
        refine ⟨tip :: suffix, ?_, ?_, ?_⟩
        · rw [hsuf, List.append_assoc]
          rfl
        · rw [List.chain'_cons']
          refine ⟨?_, hchain⟩
          intro y hy
          exact hsufle y (mem_of_head hy)
        · intro t ht
          rcases List.mem_cons.mp ht with rfl | ht
          · exact htiple
          · exact le_trans (hsufle t ht) htiple
    · rw [if_neg hm] at hrun
      injection hrun with hout
      refine ⟨[], ?_, List.chain'_nil, by intro t ht; cases ht⟩
      rw [← hout]
      simp

theorem mem_of_mem_tail {α : Type} {l : List α} {x : α} (h : x ∈ l.tail) : x ∈ l := by
  cases l with
  | nil => cases h
  | cons a l => exact List.mem_cons_of_mem _ h

theorem stepped_preserves {fetch : String → String → Sig → Option Bytes}
    {put : String → String → Sig → Bytes → Bool} {uid : String} {states : List SrvState}
    {tip : Int} {call : CopyCall} {ev : List CopyEvent} {st2 : List SrvState}
    (hf : fetchOk fetch) (hp : putOk put) (U : List ItemRef)
    (hsame : sameTsSameSig states) (hstore : storeInv states) (hreach : reachInv U states)
    (h : syncStep fetch put uid states = .stepped tip call ev st2) :
    sameTsSameSig st2 ∧ storeInv st2 ∧ reachInv U st2 := by
  obtain ⟨htip, m0, i, g, hm, hi, hip, hst, hg⟩ := syncStep_stepped_success_form hf hp h
  have hm0mem : m0 ∈ matchesOf states := mem_of_head hm
  obtain ⟨hm0s, hm0match⟩ := mem_of_mem_matchesOf hm0mem
  have hi_mem : i ∈ m0.remaining := mem_of_head hi
  have hsub : ∀ s : SrvState, ∀ x ∈ (g s).remaining, x ∈ s.remaining := by
    intro s x hx
    obtain ⟨-, hrm, -, -⟩ := hg s
    rw [hrm] at hx
    by_cases him : isMatch (tipOf states) s
    · rw [if_pos him] at hx
      exact mem_of_mem_tail hx
    · rw [if_neg him] at hx
      exact hx
  refine ⟨?_, ?_, ?_⟩
  · intro s2 hs2 t2 ht2 x hx y hy hts
    rw [hst] at hs2 ht2
    obtain ⟨s, hs, rfl⟩ := List.mem_map.mp hs2
    obtain ⟨t, ht, rfl⟩ := List.mem_map.mp ht2
    exact hsame s hs t ht x (hsub s x hx) y (hsub t y hy) hts
  · intro d2 hd2 y hy
    rw [hst] at hd2
    obtain ⟨d, hd, rfl⟩ := List.mem_map.mp hd2
    obtain ⟨-, -, hmono, -⟩ := hg d
    exact hmono _ (hstore d hd y (hsub d y hy))
  · intro x hx
    rcases hreach x hx with ⟨s, hs, hxs⟩ | hall
    · by_cases hx2 : x ∈ (g s).remaining
      · left
        exact ⟨g s, by rw [hst]; exact List.mem_map_of_mem g hs, hx2⟩
      · obtain ⟨-, hrm, -, -⟩ := hg s
        have him : isMatch (tipOf states) s = true := by
          by_contra h'
          rw [hrm, if_neg h'] at hx2
          exact hx2 hxs
        have hxtip : x.timestampMsUtc = tipOf states := by
          have hpm := isMatch_true_iff.mp him
          rw [peekTs] at hpm
          cases hrem : s.remaining with
          | nil => rw [hrem] at hxs; cases hxs
          | cons x0 rest =>
            rw [hrem] at hpm hxs
            rw [hrm, if_pos him, hrem, List.tail_cons] at hx2
            rcases List.mem_cons.mp hxs with rfl | hxr
            · simp only [List.head?_cons, Option.map_some', Option.some_inj] at hpm
              exact hpm
            · exact absurd hxr hx2
        have hsig : x.signature = i.signature :=
          hsame s hs m0 hm0s x hxs i hi_mem (by rw [hxtip, hip])
        right
        intro d2 hd2 hdest
        rw [hst] at hd2
        obtain ⟨d, hd, rfl⟩ := List.mem_map.mp hd2
        obtain ⟨hdsv, -, hmono, hpush⟩ := hg d
        by_cases hdm : isMatch (tipOf states) d
        · have hpm := isMatch_true_iff.mp hdm
          rw [peekTs] at hpm
          cases hh : d.remaining.head? with
          | none => rw [hh] at hpm; cases hpm
          | some j =>
            rw [hh] at hpm
            simp only [Option.map_some', Option.some_inj] at hpm
            have hjstore : j.signature ∈ d.store := hstore d hd j (mem_of_head hh)
            have hxj : x.signature = j.signature :=
              hsame s hs d hd x hxs j (mem_of_head hh) (by rw [hxtip, hpm])
            rw [hxj]
            exact hmono _ hjstore
        · have hdo : d ∈ othersOf states := by
            rw [othersOf]
            refine List.mem_filter.mpr ⟨hd, ?_⟩
            simp [hdm]
          have hdfil : d.server ∈ ((othersOf states).map (fun s => s.server)).filter
              (fun d => d.isDest) := by
            refine List.mem_filter.mpr ⟨List.mem_map_of_mem _ hdo, ?_⟩
            rw [hdsv] at hdest
            exact hdest
          have := hpush d.server hdfil rfl
          rw [hsig]
          exact this
    · right
      intro d2 hd2 hdest
      rw [hst] at hd2
      obtain ⟨d, hd, rfl⟩ := List.mem_map.mp hd2
      obtain ⟨hdsv, -, hmono, -⟩ := hg d
      rw [hdsv] at hdest
      exact hmono _ (hall d hd hdest)

theorem runSync_reach {fetch : String → String → Sig → Option Bytes}
    {put : String → String → Sig → Bytes → Bool} {uid : String} {mode : SyncMode}
    (hf : fetchOk fetch) (hp : putOk put) (hfull : mode.kind = ModeKind.full)
    (U : List ItemRef) :
    ∀ (fuel n : Nat) (states : List SrvState) (evAcc : List CopyEvent) (tipAcc : List Int),
    totalRemaining states < fuel →
    sameTsSameSig states → storeInv states → reachInv U states →
    ∃ out, runSync fetch put uid mode fuel n states evAcc tipAcc = some out ∧
      out.error = none ∧
      ∀ x ∈ U, ∀ d ∈ out.states, d.server.isDest = true → x.signature ∈ d.store := by
  intro fuel
  induction fuel with
  | zero => intro n states _ _ h; omega
  | succ fuel ih =>
    intro n states evAcc tipAcc hfuel hsame hstore hreach
    have hmore : moreToSync mode n = true := by
      rw [moreToSync, hfull]
    simp only [runSync, hmore, if_true]
    cases hstep : syncStep fetch put uid states with
    | finished st =>
      obtain ⟨hts, hstates⟩ := syncStep_finished_inv hstep
      refine ⟨⟨st, evAcc, n, tipAcc, none⟩, rfl, rfl, ?_⟩
      intro x hx d hd hdest
      rcases hreach x hx with ⟨s, hs, hxs⟩ | hall
      · have : s.remaining = [] := (timestampsOf_eq_nil.mp hts) s hs
        rw [this] at hxs
        cases hxs
      · rw [hstates] at hd
        exact hall d hd hdest
    | err msg ev st => exact absurd hstep (syncStep_no_err hf hp msg ev st)
    | stepped tip call ev st =>
      obtain ⟨hsame2, hstore2, hreach2⟩ := stepped_preserves hf hp U hsame hstore hreach hstep
      have hdec := totalRemaining_lt_of_stepped hstep
      exact ih (n + 1) st (evAcc ++ ev) (tipAcc ++ [tip]) (by omega) hsame2 hstore2 hreach2

theorem strict_of_sorted_nodup {states : List SrvState} (hsorted : sortedStates states)
    (hnodup : nodupStates states) (hsame : sameTsSameSig states) : strictStates states := by
  intro s hs
  haveI : IsTrans ItemRef (fun a b => b.timestampMsUtc ≤ a.timestampMsUtc) :=
    ⟨fun _ _ _ h1 h2 => le_trans h2 h1⟩
  have hpw : List.Pairwise (fun a b => b.timestampMsUtc ≤ a.timestampMsUtc) s.remaining :=
    List.chain'_iff_pairwise.mp (hsorted s hs)
  have hne : List.Pairwise (fun a b : ItemRef => a ≠ b) s.remaining := hnodup s hs
  refine (hpw.and hne).imp_of_mem ?_
  intro a b ha hb hab
  rcases hab with ⟨hle, hneq⟩
  rcases lt_or_eq_of_le hle with hlt | heq
  · exact hlt
  · exfalso
    apply hneq
    have hsig : a.signature = b.signature := hsame s hs s hs a ha b hb heq.symm
    cases a
    cases b
    simp only at heq hsig
    rw [heq, hsig]

theorem mem_allTs {states : List SrvState} {t : Int} :
    t ∈ allTs states ↔ ∃ s ∈ states, ∃ x ∈ s.remaining, x.timestampMsUtc = t := by
  rw [allTs]
  simp only [List.mem_flatten, List.mem_map]
  constructor
  · rintro ⟨L, ⟨s, hs, rfl⟩, htL⟩
    obtain ⟨x, hx, hxt⟩ := List.mem_map.mp htL
    exact ⟨s, hs, x, hx, hxt⟩
  · rintro ⟨s, hs, x, hx, hxt⟩
    exact ⟨s.remaining.map (fun i => i.timestampMsUtc), ⟨s, hs, rfl⟩,
      List.mem_map.mpr ⟨x, hx, hxt⟩⟩

theorem allTs_nil {states : List SrvState} (h : timestampsOf states = []) :
    allTs states = [] := by
  rw [allTs, List.flatten_eq_nil_iff]
  intro L hL
  obtain ⟨s, hs, rfl⟩ := List.mem_map.mp hL
  rw [(timestampsOf_eq_nil.mp h) s hs]
  rfl

theorem tipOf_eq_max_allTs {states : List SrvState} (hstrict : strictStates states)
    (hts : timestampsOf states ≠ []) :
    allTs states ≠ [] ∧ maxList (allTs states) = tipOf states := by
  have hsub : ∀ t ∈ timestampsOf states, t ∈ allTs states := by
    intro t ht
    obtain ⟨s, hs, hpeek⟩ := mem_timestampsOf.mp ht
    rw [peekTs] at hpeek
    cases hh : s.remaining.head? with
    | none => rw [hh] at hpeek; cases hpeek
    | some i =>
      rw [hh] at hpeek
      simp only [Option.map_some', Option.some_inj] at hpeek
      exact mem_allTs.mpr ⟨s, hs, i, mem_of_head hh, hpeek⟩
  have hne : allTs states ≠ [] := by
    cases hl : timestampsOf states with
    | nil => exact absurd hl hts
    | cons a l =>
      have : a ∈ allTs states := hsub a (by rw [hl]; exact List.mem_cons_self _ _)
      exact List.ne_nil_of_mem this
  refine ⟨hne, le_antisymm ?_ ?_⟩
  · have hmax := maxList_mem hne
    obtain ⟨s, hs, x, hx, hxt⟩ := mem_allTs.mp hmax
    cases hrem : s.remaining with
    | nil => rw [hrem] at hx; cases hx
    | cons x0 rest =>
      have hpw := hstrict s hs
      rw [hrem] at hpw hx
      have hx0 : x.timestampMsUtc ≤ x0.timestampMsUtc := by
        rcases List.mem_cons.mp hx with rfl | hxr
        · exact le_refl _
        · exact le_of_lt (List.rel_of_pairwise_cons hpw hxr)
      have hx0mem : x0.timestampMsUtc ∈ timestampsOf states := by
        refine mem_timestampsOf.mpr ⟨s, hs, ?_⟩
        rw [peekTs, hrem]
        rfl
      calc maxList (allTs states) = x.timestampMsUtc := hxt.symm
        _ ≤ x0.timestampMsUtc := hx0
        _ ≤ tipOf states := le_tipOf hx0mem
  · exact le_maxList (hsub _ (tipOf_mem hts))

theorem flatten_map_filter (p : Int → Bool) :
    ∀ L : List (List Int), (L.map (fun l => l.filter p)).flatten = L.flatten.filter p := by
  intro L
  induction L with
  | nil => rfl
  | cons l L ih =>
    simp only [List.map_cons, List.flatten_cons, List.filter_append, ih]

theorem stepped_allTs {fetch : String → String → Sig → Option Bytes}
    {put : String → String → Sig → Bytes → Bool} {uid : String} {states : List SrvState}
    {tip : Int} {call : CopyCall} {ev : List CopyEvent} {st2 : List SrvState}
    (hstrict : strictStates states)
    (h : syncStep fetch put uid states = .stepped tip call ev st2) :
    strictStates st2 ∧
      allTs st2 = (allTs states).filter (fun x => !(x == tipOf states)) := by
  obtain ⟨htip, hex, g, hst, hg⟩ := syncStep_stepped_form h
  constructor
  · intro s2 hs2
    rw [hst] at hs2
    obtain ⟨s, hs, rfl⟩ := List.mem_map.mp hs2
    obtain ⟨-, hrm, -⟩ := hg s
    rw [hrm]
    by_cases him : isMatch (tipOf states) s
    · rw [if_pos him]
      exact (hstrict s hs).tail
    · rw [if_neg him]
      exact hstrict s hs
  · rw [hst, allTs, allTs, List.map_map]
    have hpoint : ∀ s ∈ states,
        ((fun s => s.remaining.map (fun i => i.timestampMsUtc)) ∘ g) s =
          (s.remaining.map (fun i => i.timestampMsUtc)).filter
            (fun x => !(x == tipOf states)) := by
      intro s hs
      obtain ⟨-, hrm, -⟩ := hg s
      simp only [Function.comp_apply, hrm]
      by_cases him : isMatch (tipOf states) s
      · rw [if_pos him]
        have hpm := isMatch_true_iff.mp him
        rw [peekTs] at hpm
        cases hrem : s.remaining with
        | nil => rw [hrem] at hpm; cases hpm
        | cons x0 rest =>
          rw [hrem] at hpm
          simp only [List.head?_cons, Option.map_some', Option.some_inj] at hpm
          have hpw := hstrict s hs
          rw [hrem] at hpw
          rw [List.tail_cons, List.map_cons]
          rw [List.filter_cons_of_neg (by simp [hpm])]
          symm
          rw [List.filter_eq_self]
          intro a ha
          obtain ⟨y, hy, rfl⟩ := List.mem_map.mp ha
          have hlt : y.timestampMsUtc < x0.timestampMsUtc :=
            List.rel_of_pairwise_cons hpw hy
          simp only [Bool.not_eq_true', beq_eq_false_iff_ne, ne_eq]
          rw [hpm] at hlt
          exact ne_of_lt hlt
      · rw [if_neg him]
        symm
        rw [List.filter_eq_self]
        intro a ha
        obtain ⟨y, hy, rfl⟩ := List.mem_map.mp ha
        cases hrem : s.remaining with
        | nil => rw [hrem] at hy; cases hy
        | cons x0 rest =>
          have hpw := hstrict s hs
          rw [hrem] at hpw hy
          have hx0mem : x0.timestampMsUtc ∈ timestampsOf states := by
            refine mem_timestampsOf.mpr ⟨s, hs, ?_⟩
            rw [peekTs, hrem]
            rfl
          have hx0le : x0.timestampMsUtc ≤ tipOf states := le_tipOf hx0mem
          have hx0ne : x0.timestampMsUtc ≠ tipOf states := by
            intro heq
            apply him
            rw [isMatch, hrem]
            simp only [List.head?_cons]
            exact beq_iff_eq.mpr heq
          have hylt : y.timestampMsUtc < tipOf states := by
            rcases List.mem_cons.mp hy with rfl | hyr
            · exact lt_of_le_of_ne hx0le hx0ne
            · exact lt_of_lt_of_le (List.rel_of_pairwise_cons hpw hyr) hx0le
          simp only [Bool.not_eq_true', beq_eq_false_iff_ne, ne_eq]
          exact ne_of_lt hylt
    rw [List.map_congr_left hpoint]
    have hmm : (states.map (fun s : SrvState =>
        (s.remaining.map (fun i => i.timestampMsUtc)).filter (fun x => !(x == tipOf states)))) =
        ((states.map (fun s => s.remaining.map (fun i => i.timestampMsUtc))).map
          (fun l => l.filter (fun x => !(x == tipOf states)))) := by
      rw [List.map_map]
      rfl
    rw [hmm]
    exact flatten_map_filter _ _

theorem peel_props : ∀ (bound : Nat) (l : List Int), l.length ≤ bound →
    (∀ x, x ∈ peel l ↔ x ∈ l) ∧ List.Chain' (fun a b => b < a) (peel l) := by
  intro bound
  induction bound with
  | zero =>
    intro l hlen
    have hl : l = [] := List.length_eq_zero.mp (Nat.le_zero.mp hlen)
    subst hl
    exact ⟨fun x => Iff.rfl, List.chain'_nil⟩
  | succ bound ih =>
    intro l hlen
    by_cases hl : l = []
    · subst hl
      exact ⟨fun x => Iff.rfl, List.chain'_nil⟩
    · rw [peel_cons hl]
      have hmax := maxList_mem hl
      have hflt : (l.filter (fun x => !(x == maxList l))).length < l.length :=
        length_filter_lt _ l (maxList l) hmax (maxList_not_kept l)
      have hIH := ih (l.filter (fun x => !(x == maxList l))) (by omega)
      constructor
      · intro x
        constructor
        · intro hx
          rcases List.mem_cons.mp hx with rfl | hx
          · exact hmax
          · exact (List.mem_filter.mp ((hIH.1 x).mp hx)).1
        · intro hx
          by_cases hxm : x = maxList l
          · rw [hxm]
            exact List.mem_cons_self _ _
          · refine List.mem_cons_of_mem _ ((hIH.1 x).mpr ?_)
            refine List.mem_filter.mpr ⟨hx, ?_⟩
            simp only [Bool.not_eq_true', beq_eq_false_iff_ne, ne_eq]
            exact hxm
      · rw [List.chain'_cons']
        refine ⟨?_, hIH.2⟩
        intro y hy
        have hyf := (hIH.1 y).mp (mem_of_head hy)
        obtain ⟨hyl, hyp⟩ := List.mem_filter.mp hyf
        have hle : y ≤ maxList l := le_maxList hyl
        have hne : y ≠ maxList l := by
          simp only [Bool.not_eq_true', beq_eq_false_iff_ne, ne_eq] at hyp
          exact hyp
        exact lt_of_le_of_ne hle hne

theorem peel_mem_iff (l : List Int) : ∀ x, x ∈ peel l ↔ x ∈ l :=
  (peel_props l.length l (le_refl _)).1

theorem peel_chain (l : List Int) : List.Chain' (fun a b => b < a) (peel l) :=
  (peel_props l.length l (le_refl _)).2

theorem runSync_latest_tips {fetch : String → String → Sig → Option Bytes}
    {put : String → String → Sig → Bytes → Bool} {uid : String} {k : Int} {fl : Bool}
    (hf : fetchOk fetch) (hp : putOk put) :
    ∀ (fuel n : Nat) (states : List SrvState) (evAcc : List CopyEvent) (tipAcc : List Int),
    totalRemaining states < fuel → strictStates states →
    ∃ out, runSync fetch put uid ⟨ModeKind.latest k, fl⟩ fuel n states evAcc tipAcc = some out ∧
      out.error = none ∧
      out.tips = tipAcc ++ (peel (allTs states)).take ((k - (n : Int)).toNat) ∧
      (out.synced : Int) ≤ max (n : Int) k := by
  intro fuel
  induction fuel with
  | zero => intro n states _ _ h; omega
  | succ fuel ih =>
    intro n states evAcc tipAcc hfuel hstrict
    simp only [runSync]
    by_cases hnk : (n : Int) < k
    · have hmore : moreToSync ⟨ModeKind.latest k, fl⟩ n = true := by
        simp [moreToSync, hnk]
      rw [if_pos hmore]
      cases hstep : syncStep fetch put uid states with
      | finished st =>
        obtain ⟨hts, hstates⟩ := syncStep_finished_inv hstep
        refine ⟨⟨st, evAcc, n, tipAcc, none⟩, rfl, rfl, ?_, le_max_left _ _⟩
        rw [allTs_nil hts]
        have hpn : peel ([] : List Int) = [] := rfl
        rw [hpn]
        simp
      | err msg ev st => exact absurd hstep (syncStep_no_err hf hp msg ev st)
      | stepped tip call ev st =>
        have hts : timestampsOf states ≠ [] := (syncStep_stepped_inv hstep).1
        have htip : tip = tipOf states := (syncStep_stepped_form hstep).1
        obtain ⟨hstrict2, hallts⟩ := stepped_allTs hstrict hstep
        obtain ⟨hane, hmaxeq⟩ := tipOf_eq_max_allTs hstrict hts
        have hpeel : peel (allTs states) = tipOf states :: peel (allTs st) := by
          rw [peel_cons hane, hmaxeq, ← hallts]
        have hdec := totalRemaining_lt_of_stepped hstep
        obtain ⟨out, hrun, herr, htips, hsynced⟩ :=
          ih (n + 1) st (evAcc ++ ev) (tipAcc ++ [tip]) (by omega) hstrict2
        refine ⟨out, hrun, herr, ?_, ?_⟩
        · rw [htips, hpeel, htip]
          have htake : ((k - (n : Int)).toNat) = ((k - ((n + 1 : Nat) : Int)).toNat) + 1 := by
            push_cast
            omega
          rw [htake, List.take_succ_cons, List.append_assoc]
          rfl
        · have hcast : (((n + 1 : Nat)) : Int) = (n : Int) + 1 := by push_cast; rfl
          rw [hcast] at hsynced
          have hmx : max ((n : Int) + 1) k ≤ max (n : Int) k := by
            apply max_le
            · exact le_max_of_le_right hnk
            · exact le_max_right _ _
          exact le_trans hsynced hmx
    · have hmore : moreToSync ⟨ModeKind.latest k, fl⟩ n = false := by
        simp [moreToSync, hnk]
      rw [hmore]
      simp only [Bool.false_eq_true, if_false]
      refine ⟨⟨states, evAcc, n, tipAcc, none⟩, rfl, rfl, ?_, le_max_left _ _⟩
      have hz : (k - (n : Int)).toNat = 0 := by omega
      rw [hz]
      simp

theorem syncLatestProfile_none {gp : String → String → Option Profile}
    {servers : List ServerInfo} {uid : String}
    (h : ∀ s ∈ servers, gp s.url uid = none) :
    syncLatestProfile gp servers uid = none := by
  rw [syncLatestProfile]
  have hfm : (servers.map (fun s => (s, gp s.url uid))).filterMap (fun p => p.2) = [] := by
    rw [List.filterMap_eq_nil_iff]
    intro p hp
    obtain ⟨s, hs, rfl⟩ := List.mem_map.mp hp
    exact h s hs
  simp only [hfm, List.map_nil, List.isEmpty_nil, if_true]

theorem syncCollectSeq_error {gp : String → String → Option Profile}
    {servers : List ServerInfo} :
    ∀ (users : List SyncUserOpts) (u : SyncUserOpts), u ∈ users →
    (∀ s ∈ servers, gp s.url u.id = none) →
    ∃ msg, syncCollectSeq gp servers users = .error msg := by
  intro users
  induction users with
  | nil => intro u hu; cases hu
  | cons u0 rest ih =>
    intro u hu hnone
    rcases List.mem_cons.mp hu with rfl | hu
    · have hd : discoverUser gp servers u = .error ("Could not load user UserID " ++ u.id) := by
        rw [discoverUser, syncLatestProfile_none hnone]
      refine ⟨"Could not load user UserID " ++ u.id, ?_⟩
      rw [syncCollectSeq, hd]
    · cases hd : discoverUser gp servers u0 with
      | error e =>
        refine ⟨e, ?_⟩
        rw [syncCollectSeq, hd]
      | ok l =>
        obtain ⟨msg, hmsg⟩ := ih u hu hnone
        refine ⟨msg, ?_⟩
        rw [syncCollectSeq, hd, hmsg]

theorem syncTop_error {gp : String → String → Option Profile}
    {gui : String → String → List ItemRef}
    {fetch : String → String → Sig → Option Bytes}
    {put : String → String → Sig → Bytes → Bool}
    {servers : List ServerInfo} {users : List SyncUserOpts} {u : SyncUserOpts}
    (hu : u ∈ users) (hnone : ∀ s ∈ servers, gp s.url u.id = none) :
    ∃ msg, syncTop gp gui fetch put servers users = .error msg := by
  obtain ⟨msg, hmsg⟩ := syncCollectSeq_error users u hu hnone
  refine ⟨msg, ?_⟩
  rw [syncTop, syncCollect, hmsg]

theorem foldl_mergeUser_sync : ∀ (l : List SyncUserOptions) (e : SyncUserOptions),
    (l.foldl mergeUser e).sync = e.sync := by
  intro l
  induction l with
  | nil => intro e; rfl
  | cons i l ih => intro e; rw [List.foldl_cons, ih]; rfl

theorem foldl_mergeUser_id : ∀ (l : List SyncUserOptions) (e : SyncUserOptions),
    (l.foldl mergeUser e).user.id = e.user.id := by
  intro l
  induction l with
  | nil => intro e; rfl
  | cons i l ih => intro e; rw [List.foldl_cons, ih]; rfl

theorem foldl_mergeUser_displayName : ∀ (l : List SyncUserOptions) (e : SyncUserOptions),
    (l.foldl mergeUser e).user.displayName =
      (l.map (fun i => i.user.displayName)).foldl orElseJS e.user.displayName := by
  intro l
  induction l with
  | nil => intro e; rfl
  | cons i l ih => intro e; rw [List.foldl_cons, ih, List.map_cons, List.foldl_cons]; rfl

theorem foldl_mergeUser_knownName : ∀ (l : List SyncUserOptions) (e : SyncUserOptions),
    (l.foldl mergeUser e).user.knownName =
      (l.map (fun i => i.user.knownName)).foldl orElseJS e.user.knownName := by
  intro l
  induction l with
  | nil => intro e; rfl
  | cons i l ih => intro e; rw [List.foldl_cons, ih, List.map_cons, List.foldl_cons]; rfl

theorem foldl_orElseJS_stay : ∀ (l : List (Option String)) (a : Option String),
    truthy a = true → l.foldl orElseJS a = a := by
  intro l
  induction l with
  | nil => intro a _; rfl
  | cons b l ih =>
    intro a ha
    rw [List.foldl_cons]
    have : orElseJS a b = a := by rw [orElseJS, if_pos ha]
    rw [this]
    exact ih a ha

theorem find_cons_pos {α : Type} (p : α → Bool) (a : α) (l : List α) (h : p a = true) :
    (a :: l).find? p = some a :=
  List.find?_cons_of_pos l h

theorem find_cons_neg {α : Type} (p : α → Bool) (a : α) (l : List α) (h : p a = false) :
    (a :: l).find? p = l.find? p :=
  List.find?_cons_of_neg l (by simp [h])

theorem countP_cons_pos {α : Type} (p : α → Bool) (a : α) (l : List α) (h : p a = true) :
    (a :: l).countP p = l.countP p + 1 := by
  simp [List.countP_cons, h]

theorem countP_cons_neg {α : Type} (p : α → Bool) (a : α) (l : List α) (h : p a = false) :
    (a :: l).countP p = l.countP p := by
  simp [List.countP_cons, h]

theorem filter_cons_pos {α : Type} (p : α → Bool) (a : α) (l : List α) (h : p a = true) :
    (a :: l).filter p = a :: l.filter p :=
  List.filter_cons_of_pos h

theorem filter_cons_neg {α : Type} (p : α → Bool) (a : α) (l : List α) (h : p a = false) :
    (a :: l).filter p = l.filter p :=
  List.filter_cons_of_neg (by simp [h])

theorem foldl_orElseJS_first : ∀ (l : List (Option String)) (a v : Option String),
    (a :: l).find? truthy = some v → l.foldl orElseJS a = v := by
  intro l
  induction l with
  | nil =>
    intro a v h
    by_cases ha : truthy a = true
    · rw [find_cons_pos truthy a [] ha] at h
      rw [Option.some_inj] at h
      rw [h]
      rfl
    · rw [find_cons_neg truthy a [] (by simpa using ha), List.find?_nil] at h
      cases h
  | cons b l ih =>
    intro a v h
    by_cases ha : truthy a = true
    · rw [find_cons_pos truthy a (b :: l) ha] at h
      rw [Option.some_inj] at h
      rw [← h]
      exact foldl_orElseJS_stay _ a ha
    · rw [find_cons_neg truthy a (b :: l) (by simpa using ha)] at h
      rw [List.foldl_cons]
      have horb : orElseJS a b = b := by rw [orElseJS, if_neg (by simpa using ha)]
      rw [horb]
      exact ih b v h

theorem addUser_find (m : List (String × SyncUserOptions)) (info : SyncUserOptions)
    (id : String) :
    (addUser m info).find? (fun p => p.1 == id) =
      (if info.user.id == id then
        match m.find? (fun p => p.1 == id) with
        | some ke => some (ke.1, mergeUser ke.2 info)
        | none => some (info.user.id, info)
      else m.find? (fun p => p.1 == id)) := by
  induction m with
  | nil =>
    by_cases hid : (info.user.id == id) = true
    · rw [if_pos hid]
      simp only [addUser, List.find?_nil]
      rw [find_cons_pos (fun p => p.1 == id) (info.user.id, info) [] hid]
    · rw [if_neg hid]
      simp only [addUser, List.find?_nil]
      rw [find_cons_neg (fun p => p.1 == id) (info.user.id, info) []
        (by simpa using hid), List.find?_nil]
  | cons p rest ih =>
    rw [addUser]
    by_cases hp : (p.1 == info.user.id) = true
    · rw [if_pos hp]
      have hp' : p.1 = info.user.id := eq_of_beq hp
      by_cases hpid : (p.1 == id) = true
      · have hiid : (info.user.id == id) = true := by
          rw [← hp']
          exact hpid
        rw [if_pos hiid]
        rw [find_cons_pos (fun p => p.1 == id) (p.1, mergeUser p.2 info) rest hpid,
          find_cons_pos (fun p => p.1 == id) p rest hpid]
      · have hiid : (info.user.id == id) = false := by
          rw [← hp']
          simpa using hpid
        rw [if_neg (by simp [hiid])]
        rw [find_cons_neg (fun p => p.1 == id) (p.1, mergeUser p.2 info) rest
          (by simpa using hpid), find_cons_neg (fun p => p.1 == id) p rest (by simpa using hpid)]
    · rw [if_neg hp]
      by_cases hpid : (p.1 == id) = true
      · have hiid : (info.user.id == id) = false := by
          have hp2 : p.1 = id := eq_of_beq hpid
          by_contra hc
          rw [Bool.not_eq_false] at hc
          have hinfo : info.user.id = id := eq_of_beq hc
          apply hp
          rw [hp2, hinfo]
          exact beq_self_eq_true _
        rw [if_neg (by simp [hiid])]
        rw [find_cons_pos (fun p => p.1 == id) p (addUser rest info) hpid,
          find_cons_pos (fun p => p.1 == id) p rest hpid]
      · rw [find_cons_neg (fun p => p.1 == id) p (addUser rest info) (by simpa using hpid),
          find_cons_neg (fun p => p.1 == id) p rest (by simpa using hpid)]
        exact ih

theorem mem_addUser_keys : ∀ (m : List (String × SyncUserOptions)) (info : SyncUserOptions)
    (x : String), x ∈ (addUser m info).map (fun p => p.1) ↔
      x ∈ m.map (fun p => p.1) ∨ x = info.user.id := by
  intro m
  induction m with
  | nil =>
    intro info x
    simp [addUser]
  | cons p rest ih =>
    intro info x
    rw [addUser]
    by_cases hp : (p.1 == info.user.id) = true
    · have hp' : p.1 = info.user.id := eq_of_beq hp
      rw [if_pos hp]
      simp only [List.map_cons, List.mem_cons]
      constructor
      · rintro (rfl | hx)
        · left; left; rfl
        · left; right; exact hx
      · rintro ((rfl | hx) | rfl)
        · left; rfl
        · right; exact hx
        · left; rw [hp']
    · rw [if_neg hp]
      rw [List.map_cons, List.mem_cons, List.map_cons, List.mem_cons, ih info x]
      exact (or_assoc).symm

theorem addUser_keys_nodup (m : List (String × SyncUserOptions)) (info : SyncUserOptions)
    (hnd : (m.map (fun p => p.1)).Nodup) :
    ((addUser m info).map (fun p => p.1)).Nodup := by
  induction m with
  | nil => simp [addUser]
  | cons p rest ih =>
    rw [addUser]
    by_cases hp : (p.1 == info.user.id) = true
    · rw [if_pos hp]
      simpa using hnd
    · rw [if_neg hp]
      simp only [List.map_cons, List.nodup_cons] at hnd ⊢
      refine ⟨?_, ih hnd.2⟩
      rw [mem_addUser_keys]
      rintro (hx | heq)
      · exact hnd.1 hx
      · apply hp
        rw [heq]
        exact beq_self_eq_true _

theorem list_countP_key_eq_one : ∀ (m : List (String × SyncUserOptions)) (id : String),
    (m.map (fun p => p.1)).Nodup →
    (∃ y, m.find? (fun p => p.1 == id) = some y) →
    m.countP (fun p => p.1 == id) = 1 := by
  intro m
  induction m with
  | nil =>
    intro id _ hy
    obtain ⟨y, hy⟩ := hy
    cases hy
  | cons p rest ih =>
    intro id hnd hy
    obtain ⟨y, hy⟩ := hy
    simp only [List.map_cons, List.nodup_cons] at hnd
    by_cases hp : (p.1 == id) = true
    · rw [countP_cons_pos (fun p => p.1 == id) p rest hp]
      have hzero : rest.countP (fun p => p.1 == id) = 0 := by
        rw [List.countP_eq_zero]
        intro q hq hqid
        apply hnd.1
        have hq' : q.1 = id := eq_of_beq hqid
        have hp' : p.1 = id := eq_of_beq hp
        rw [hp', ← hq']
        exact List.mem_map_of_mem _ hq
      rw [hzero]
    · rw [countP_cons_neg (fun p => p.1 == id) p rest (by simpa using hp)]
      rw [find_cons_neg (fun p => p.1 == id) p rest (by simpa using hp)] at hy
      exact ih id hnd.2 ⟨y, hy⟩

theorem foldl_addUser_find (id : String) : ∀ (infos : List SyncUserOptions)
    (m : List (String × SyncUserOptions)),
    (infos.foldl addUser m).find? (fun p => p.1 == id) =
      (match m.find? (fun p => p.1 == id) with
       | some ke => some (ke.1, (infos.filter (fun i => i.user.id == id)).foldl mergeUser ke.2)
       | none =>
         match infos.filter (fun i => i.user.id == id) with
         | [] => none
         | j0 :: rest => some (j0.user.id, rest.foldl mergeUser j0)) := by
  intro infos
  induction infos with
  | nil =>
    intro m
    rw [List.foldl_nil, List.filter_nil]
    cases hfind : m.find? (fun p => p.1 == id) with
    | some ke => rfl
    | none => rfl
  | cons i infos ih =>
    intro m
    rw [List.foldl_cons, ih (addUser m i), addUser_find m i id]
    by_cases hid : (i.user.id == id) = true
    · rw [if_pos hid, filter_cons_pos (fun i => i.user.id == id) i infos hid]
      cases hfind : m.find? (fun p => p.1 == id) with
      | some ke => rfl
      | none => rfl
    · rw [if_neg hid, filter_cons_neg (fun i => i.user.id == id) i infos (by simpa using hid)]

theorem foldl_addUser_keys_nodup : ∀ (infos : List SyncUserOptions)
    (m : List (String × SyncUserOptions)),
    (m.map (fun p => p.1)).Nodup →
    ((infos.foldl addUser m).map (fun p => p.1)).Nodup := by
  intro infos
  induction infos with
  | nil => intro m h; exact h
  | cons i infos ih =>
    intro m h
    rw [List.foldl_cons]
    exact ih (addUser m i) (addUser_keys_nodup m i h)

theorem copyPush_events_mem (put : String → String → Sig → Bytes → Bool) (uid : String)
    (sig : Sig) (item : Option Bytes) : ∀ (dests : List ServerInfo) (states : List SrvState),
    ∀ e ∈ (copyPush put uid sig item dests states).events,
      ∃ d ∈ dests, e = CopyEvent.started d.url ∨ e = CopyEvent.success d.url ∨
        ∃ msg, e = CopyEvent.error d.url msg := by
  intro dests
  induction dests with
  | nil => intro states e he; cases he
  | cons d rest ih =>
    intro states e he
    cases item with
    | none =>
      rcases List.mem_cons.mp he with rfl | he
      · exact ⟨d, List.mem_cons_self _ _, Or.inl rfl⟩
      · rcases List.mem_cons.mp he with rfl | he
        · exact ⟨d, List.mem_cons_self _ _, Or.inr (Or.inr ⟨_, rfl⟩)⟩
        · cases he
    | some bytes =>
      rw [copyPush] at he
      by_cases hput : put d.url uid sig bytes
      · simp only [hput, if_true] at he
        rcases List.mem_cons.mp he with rfl | he
        · exact ⟨d, List.mem_cons_self _ _, Or.inl rfl⟩
        · rcases List.mem_cons.mp he with rfl | he
          · exact ⟨d, List.mem_cons_self _ _, Or.inr (Or.inl rfl)⟩
          · obtain ⟨d2, hd2, hor⟩ := ih _ e he
            exact ⟨d2, List.mem_cons_of_mem _ hd2, hor⟩
      · simp only [hput, Bool.false_eq_true, if_false] at he
        rcases List.mem_cons.mp he with rfl | he
        · exact ⟨d, List.mem_cons_self _ _, Or.inl rfl⟩
        · cases he

theorem copyItem_events_mem (fetch : String → String → Sig → Option Bytes)
    (put : String → String → Sig → Bytes → Bool) (uid : String) (sig : Sig)
    (sources destinations : List ServerInfo) (states : List SrvState) :
    ∀ e ∈ (copyItem fetch put uid sig sources destinations states).events,
      ∃ d ∈ destinations.filter (fun d => d.isDest),
        e = CopyEvent.started d.url ∨ e = CopyEvent.success d.url ∨
          ∃ msg, e = CopyEvent.error d.url msg := by
  rw [copyItem]
  by_cases hd : (destinations.filter (fun d => d.isDest)).isEmpty
  · simp only [hd, if_true]
    intro e he
    cases he
  · simp only [hd, Bool.false_eq_true, if_false]
    cases hc : choose sources with
    | none => intro e he; cases he
    | some source => exact copyPush_events_mem put uid sig _ _ states

theorem isMatch_eq_peek_beq (tip : Int) (s : SrvState) :
    isMatch tip s = (peekTs s == some tip) := by
  rw [isMatch, peekTs]
  cases s.remaining.head? with
  | none => rfl
  | some i => rfl

/-- C7: whenever the list of peeked timestamps of non-exhausted cursors is
non-empty, the `matches` partition is non-empty and its first element has a
pending (non-done) value, so the `"coding logic error: can not find next
Item"` branch of `#syncUser` is unreachable — for every input, with no
sortedness assumption on the sources. -/
theorem c7_matches_nonempty (states : List SrvState)
    (hts : timestampsOf states ≠ []) :
    matchesOf states ≠ [] ∧
    (∃ m0 i, (matchesOf states).head? = some m0 ∧ m0.remaining.head? = some i) ∧
    ∀ (fetch : String → String → Sig → Option Bytes)
      (put : String → String → Sig → Bytes → Bool) (uid : String)
      (ev : List CopyEvent) (st : List SrvState),
      syncStep fetch put uid states ≠
        .err "coding logic error: can not find next Item" ev st := by
  obtain ⟨m0, i, hm, hi, hip⟩ := matches_head_pending hts
  refine ⟨matchesOf_ne_nil hts, ⟨m0, i, hm, hi⟩, ?_⟩
  intro fetch put uid ev st h
  have htsb : (timestampsOf states).isEmpty = false := by
    cases hl : timestampsOf states with
    | nil => exact absurd hl hts
    | cons a l => rfl
  rw [syncStep_eq_of fetch put uid states m0 i htsb hm hi] at h
  cases hth : (copyItem fetch put uid i.signature ((matchesOf states).map (fun s => s.server))
      ((othersOf states).map (fun s => s.server)) states).thrown with
  | none => rw [hth] at h; cases h
  | some msg =>
    rw [hth] at h
    injection h with h1 h2 h3
    rcases copyItem_thrown_vals fetch put uid i.signature
        ((matchesOf states).map (fun s => s.server))
        ((othersOf states).map (fun s => s.server)) states with hv | hv | hv
    · rw [hth] at hv; cases hv
    · rw [hth] at hv
      rw [Option.some_inj] at hv
      rw [h1] at hv
      exact absurd hv (by decide)
    · rw [hth] at hv
      rw [Option.some_inj] at hv
      rw [h1] at hv
      exact absurd hv (by decide)

/-- C2: in every merge-loop iteration with at least one non-exhausted
cursor, the tip is the maximum of the peeked timestamps, `matches` are
exactly the cursors peeking the tip, `others` are exactly the cursors
peeking an older timestamp or exhausted, the copy is invoked with the
matches' servers as sources and the others' servers as destinations, and
inside the copy only destinations marked `isDest` are ever addressed. -/
theorem c2_tip_partition (states : List SrvState)
    (hts : timestampsOf states ≠ []) :
    (tipOf states ∈ timestampsOf states ∧ ∀ t ∈ timestampsOf states, t ≤ tipOf states) ∧
    matchesOf states = states.filter (fun s => peekTs s == some (tipOf states)) ∧
    othersOf states = states.filter (fun s =>
      match peekTs s with
      | some t => decide (t < tipOf states)
      | none => true) ∧
    (∀ (fetch : String → String → Sig → Option Bytes)
      (put : String → String → Sig → Bytes → Bool) (uid : String)
      (tip : Int) (call : CopyCall) (ev : List CopyEvent) (st2 : List SrvState),
      syncStep fetch put uid states = .stepped tip call ev st2 →
      tip = tipOf states ∧
      call.sources = (matchesOf states).map (fun s => s.server) ∧
      call.destinations = (othersOf states).map (fun s => s.server)) ∧
    (∀ (fetch : String → String → Sig → Option Bytes)
      (put : String → String → Sig → Bytes → Bool) (uid : String) (sig : Sig)
      (sources destinations : List ServerInfo) (sts : List SrvState),
      ∀ e ∈ (copyItem fetch put uid sig sources destinations sts).events,
        ∃ d ∈ destinations.filter (fun d => d.isDest),
          e = CopyEvent.started d.url ∨ e = CopyEvent.success d.url ∨
            ∃ msg, e = CopyEvent.error d.url msg) := by
  refine ⟨⟨tipOf_mem hts, fun t ht => le_tipOf ht⟩, ?_, ?_, ?_, ?_⟩
  · rw [matchesOf]
    apply List.filter_congr
    intro s _
    exact isMatch_eq_peek_beq (tipOf states) s
  · rw [othersOf]
    apply List.filter_congr
    intro s hs
    cases hpk : peekTs s with
    | none =>
      rw [isMatch_eq_peek_beq, hpk]
      rfl
    | some t =>
      rw [isMatch_eq_peek_beq, hpk]
      have hle : t ≤ tipOf states := le_tipOf (mem_timestampsOf.mpr ⟨s, hs, hpk⟩)
      by_cases heq : t = tipOf states
      · subst heq
        simp
      · have hlt : t < tipOf states := lt_of_le_of_ne hle heq
        simp [heq, hlt]
  · intro fetch put uid tip call ev st2 h
    obtain ⟨-, htip, m0, i, hm, hi, hip, hcall, -, -, -⟩ := syncStep_stepped_inv h
    exact ⟨htip, by rw [hcall], by rw [hcall]⟩
  · intro fetch put uid sig sources destinations sts
    exact copyItem_events_mem fetch put uid sig sources destinations sts

/-- C6: for every user, if each server's unconsumed item sequence is sorted
in non-increasing timestamp order, the sequence of tips selected by
successive iterations of that user's merge loop is monotonically
non-increasing. -/
theorem c6_tips_monotone (fetch : String → String → Sig → Option Bytes)
    (put : String → String → Sig → Bytes → Bool) (uid : String) (mode : SyncMode)
    (fuel : Nat) (states : List SrvState) (out : RunOut)
    (hsorted : sortedStates states)
    (hrun : runSync fetch put uid mode fuel 0 states [] [] = some out) :
    List.Chain' (fun a b => b ≤ a) out.tips := by
  obtain ⟨suffix, hsuf, hchain, -⟩ :=
    runSync_tips_chain fuel 0 states [] [] (tipOf states) hsorted
      (fun t ht => le_tipOf ht) out hrun
  rw [hsuf]
  simpa using hchain

/-- C8: with every fetch and put succeeding, one run of the merge loop over
finite sequences terminates within `totalRemaining + 1` iterations, exiting
only because all cursors are exhausted or because the mode's continuation
predicate became false; and every iteration that steps advances at least
one matching cursor, strictly decreasing the total number of unconsumed
items. -/
theorem c8_terminates (fetch : String → String → Sig → Option Bytes)
    (put : String → String → Sig → Bytes → Bool) (uid : String) (mode : SyncMode)
    (states : List SrvState) (hf : fetchOk fetch) (hp : putOk put) :
    (∃ out, runSync fetch put uid mode (totalRemaining states + 1) 0 states [] [] = some out ∧
      out.error = none ∧
      (timestampsOf out.states = [] ∨ moreToSync mode out.synced = false)) ∧
    (∀ (sts : List SrvState) (tip : Int) (call : CopyCall) (ev : List CopyEvent)
      (st2 : List SrvState),
      syncStep fetch put uid sts = .stepped tip call ev st2 →
      (∃ s ∈ sts, isMatch (tipOf sts) s = true ∧ s.remaining ≠ []) ∧
      totalRemaining st2 < totalRemaining sts) := by
  constructor
  · exact runSync_exit hf hp _ 0 states [] [] (Nat.lt_succ_self _)
  · intro sts tip call ev st2 h
    exact ⟨(syncStep_stepped_form h).2.1, totalRemaining_lt_of_stepped h⟩

/-- C1: full-mode merge over finite, newest-first server sequences in which
equal timestamps always denote the identical record, with every
getItemBytes and putItem succeeding: after one run, every destination
server's item set contains every item of every configured server's
start-of-run sequence. -/
theorem c1_full_sync_converges (fetch : String → String → Sig → Option Bytes)
    (put : String → String → Sig → Bytes → Bool) (uid : String) (fl : Bool)
    (input : List (ServerInfo × List ItemRef))
    (_hsorted : sortedStates (initStates input))
    (hsame : sameTsSameSig (initStates input))
    (hf : fetchOk fetch) (hp : putOk put) :
    ∃ out, runSync fetch put uid ⟨ModeKind.full, fl⟩
        (totalRemaining (initStates input) + 1) 0 (initStates input) [] [] = some out ∧
      out.error = none ∧
      ∀ d ∈ out.states, d.server.isDest = true →
        ∀ p ∈ input, ∀ x ∈ p.2, x.signature ∈ d.store := by
  have hstore : storeInv (initStates input) := by
    intro s hs y hy
    obtain ⟨p, hpmem, rfl⟩ := List.mem_map.mp hs
    exact List.mem_map_of_mem _ hy
  have hreach : reachInv (allItems input) (initStates input) := by
    intro x hx
    left
    rw [allItems] at hx
    obtain ⟨L, hL, hxL⟩ := List.mem_flatten.mp hx
    obtain ⟨p, hpmem, rfl⟩ := List.mem_map.mp hL
    exact ⟨⟨p.1, p.2.map (fun i => i.signature), p.2⟩,
      List.mem_map_of_mem _ hpmem, hxL⟩
  obtain ⟨out, hrun, herr, hsup⟩ :=
    @runSync_reach fetch put uid ⟨ModeKind.full, fl⟩ hf hp rfl (allItems input)
      (totalRemaining (initStates input) + 1) 0
      (initStates input) [] [] (Nat.lt_succ_self _) hsame hstore hreach
  refine ⟨out, hrun, herr, ?_⟩
  intro d hd hdest p hpmem x hx
  have hxall : x ∈ allItems input := by
    rw [allItems]
    exact List.mem_flatten.mpr ⟨p.2, List.mem_map_of_mem _ hpmem, hx⟩
  exact hsup x hxall d hd hdest

/-- C5: latest-mode merge with a positive count `k` over finite,
newest-first, duplicate-free server sequences in which equal timestamps
always denote the identical record, with all fetches and puts succeeding:
at most `k` iterations run (so at most `k` items are reconciled), and the
reconciled tips are exactly the first `k` entries of the strictly
descending enumeration of all timestamps present across all servers —
i.e. the `k` most recent items. -/
theorem c5_latest_bounded (fetch : String → String → Sig → Option Bytes)
    (put : String → String → Sig → Bytes → Bool) (uid : String) (fl : Bool)
    (k : Int) (input : List (ServerInfo × List ItemRef))
    (hk : 0 < k)
    (hsorted : sortedStates (initStates input))
    (hnodup : nodupStates (initStates input))
    (hsame : sameTsSameSig (initStates input))
    (hf : fetchOk fetch) (hp : putOk put) :
    ∃ out, runSync fetch put uid ⟨ModeKind.latest k, fl⟩
        (totalRemaining (initStates input) + 1) 0 (initStates input) [] [] = some out ∧
      out.error = none ∧
      out.synced ≤ k.toNat ∧
      out.tips = (peel (allTs (initStates input))).take k.toNat ∧
      List.Chain' (fun a b => b < a) (peel (allTs (initStates input))) ∧
      (∀ t, t ∈ peel (allTs (initStates input)) ↔ t ∈ allTs (initStates input)) := by
  have hstrict := strict_of_sorted_nodup hsorted hnodup hsame
  obtain ⟨out, hrun, herr, htips, hsynced⟩ :=
    runSync_latest_tips hf hp (totalRemaining (initStates input) + 1) 0
      (initStates input) [] [] (Nat.lt_succ_self _) hstrict
  refine ⟨out, hrun, herr, ?_, ?_, peel_chain _, peel_mem_iff _⟩
  · have hc : ((0 : Nat) : Int) = 0 := rfl
    rw [hc, max_eq_right (le_of_lt hk)] at hsynced
    omega
  · rw [htips]
    have hz : (k - ((0 : Nat) : Int)).toNat = k.toNat := by
      have hc : ((0 : Nat) : Int) = 0 := rfl
      rw [hc]
      omega
    rw [hz]
    simp

/-- C10: with the current `moreToSync`, latest mode with a count of 0 or
less is false before the first iteration, so the merge loop reconciles
zero items and issues zero copy operations; the earlier implementation's
`moreToSync` treated such a count as "no limit" and always continued. -/
theorem c10_latest_nonpositive (k : Int) (fl : Bool) (hk : k ≤ 0) :
    moreToSync ⟨ModeKind.latest k, fl⟩ 0 = false ∧
    (∀ (fetch : String → String → Sig → Option Bytes)
      (put : String → String → Sig → Bytes → Bool) (uid : String) (fuel : Nat)
      (states : List SrvState) (evAcc : List CopyEvent) (tipAcc : List Int),
      runSync fetch put uid ⟨ModeKind.latest k, fl⟩ (fuel + 1) 0 states evAcc tipAcc =
        some ⟨states, evAcc, 0, tipAcc, none⟩) ∧
    (∀ n : Nat, moreToSyncEarlier k n = true) := by
  have hmore : moreToSync ⟨ModeKind.latest k, fl⟩ 0 = false := by
    simp only [moreToSync]
    simp only [decide_eq_false_iff_not, not_lt]
    exact_mod_cast hk
  refine ⟨hmore, ?_, ?_⟩
  · intro fetch put uid fuel states evAcc tipAcc
    simp only [runSync, hmore, Bool.false_eq_true, if_false]
  · intro n
    rw [moreToSyncEarlier]
    have : decide (k ≤ 0) = true := decide_eq_true hk
    rw [this]
    rfl

/-- C3 counterexample: with two marked destinations and a put that rejects
for the first one, `#copyItem` emits only the start event for the first
destination and throws — the push to the second destination is never
attempted, contradicting the claim that one destination's failure never
prevents the push attempt to any other destination and never aborts the
merge loop. -/
theorem c3_counterexample :
    (copyItem (fun _ _ _ => some [7]) (fun url _ _ _ => !(url == "d1")) "u" [9]
      [⟨"s0", none, false⟩] [⟨"d1", none, true⟩, ⟨"d2", none, true⟩] []) =
      ⟨[CopyEvent.started "d1"], [], some "putItem failed"⟩ ∧
    CopyEvent.started "d2" ∉
      (copyItem (fun _ _ _ => some [7]) (fun url _ _ _ => !(url == "d1")) "u" [9]
        [⟨"s0", none, false⟩] [⟨"d1", none, true⟩, ⟨"d2", none, true⟩] []).events := by
  constructor
  · decide
  · decide

/-- C3 (amended): in the current `#copyItem`, a null fetch result logs an
error for the first destination only and returns, abandoning every push
(but throwing nothing, so the merge loop continues); a rejected put emits
only the start event for its destination and throws, so the remaining
destinations are never attempted and the exception immediately ends the
user's merge loop with that error. -/
theorem c3_copy_failure_behavior (fetch : String → String → Sig → Option Bytes)
    (put : String → String → Sig → Bytes → Bool) (uid : String) (sig : Sig)
    (sources destinations : List ServerInfo) (states : List SrvState)
    (s0 d1 : ServerInfo) (rest : List ServerInfo)
    (hs : sources.head? = some s0)
    (hd : destinations.filter (fun d => d.isDest) = d1 :: rest) :
    (fetch s0.url uid sig = none →
      copyItem fetch put uid sig sources destinations states =
        ⟨[CopyEvent.started d1.url,
          CopyEvent.error d1.url "Could not copy item from source"], states, none⟩) ∧
    (∀ b, fetch s0.url uid sig = some b → put d1.url uid sig b = false →
      copyItem fetch put uid sig sources destinations states =
        ⟨[CopyEvent.started d1.url], states, some "putItem failed"⟩) ∧
    (∀ (mode : SyncMode) (fuel n : Nat) (evAcc : List CopyEvent) (tipAcc : List Int)
      (msg : String) (ev : List CopyEvent) (st : List SrvState),
      moreToSync mode n = true →
      syncStep fetch put uid states = .err msg ev st →
      runSync fetch put uid mode (fuel + 1) n states evAcc tipAcc =
        some ⟨st, evAcc ++ ev, n, tipAcc, some msg⟩) := by
  have hne : (destinations.filter (fun d => d.isDest)).isEmpty = false := by
    rw [hd]
    rfl
  refine ⟨?_, ?_, ?_⟩
  · intro hfetch
    rw [copyItem]
    simp only [hne, Bool.false_eq_true, if_false]
    rw [choose, hs]
    simp only [hfetch, hd]
    rfl
  · intro b hfetch hput
    rw [copyItem]
    simp only [hne, Bool.false_eq_true, if_false]
    rw [choose, hs]
    simp only [hfetch, hd, copyPush, hput, Bool.false_eq_true, if_false]
  · intro mode fuel n evAcc tipAcc msg ev st hmore hstep
    simp only [runSync, hmore, if_true, hstep]

/-- C4 counterexample: two directly configured users; no server has a
profile for the first one, while the second one's profile is available
everywhere. `Sync.sync` throws while resolving the first user, so the
whole run aborts and the second user is never synced — contradicting the
claim that the failure is fatal for that user's subtree only. -/
theorem c4_counterexample :
    syncTop (fun _ uid => if uid == "u2" then some ⟨100, [1], some "U2", []⟩ else none)
      (fun _ _ => []) (fun _ _ _ => some [7]) (fun _ _ _ _ => true)
      [⟨"s1", none, true⟩, ⟨"s2", none, false⟩]
      [⟨"alice", "u1", ⟨ModeKind.full, false⟩⟩, ⟨"bob", "u2", ⟨ModeKind.full, false⟩⟩] =
      .error "Could not load user UserID u1" ∧
    ∀ r, syncTop (fun _ uid => if uid == "u2" then some ⟨100, [1], some "U2", []⟩ else none)
      (fun _ _ => []) (fun _ _ _ => some [7]) (fun _ _ _ _ => true)
      [⟨"s1", none, true⟩, ⟨"s2", none, false⟩]
      [⟨"alice", "u1", ⟨ModeKind.full, false⟩⟩, ⟨"bob", "u2", ⟨ModeKind.full, false⟩⟩] ≠
      .ok r := by
  constructor
  · rfl
  · intro r h
    rw [show syncTop (fun _ uid => if uid == "u2" then some ⟨100, [1], some "U2", []⟩ else none)
      (fun _ _ => []) (fun _ _ _ => some [7]) (fun _ _ _ _ => true)
      [⟨"s1", none, true⟩, ⟨"s2", none, false⟩]
      [⟨"alice", "u1", ⟨ModeKind.full, false⟩⟩, ⟨"bob", "u2", ⟨ModeKind.full, false⟩⟩] =
      .error "Could not load user UserID u1" from rfl] at h
    cases h

/-- C4 (amended): if no configured server returns a profile for some
directly configured user, `Sync.sync` throws: the whole run returns that
error, no task map is produced, and no user — including those whose
profiles are available — is synced. -/
theorem c4_missing_profile_aborts_run (gp : String → String → Option Profile)
    (gui : String → String → List ItemRef)
    (fetch : String → String → Sig → Option Bytes)
    (put : String → String → Sig → Bytes → Bool)
    (servers : List ServerInfo) (users : List SyncUserOpts) (u : SyncUserOpts)
    (hu : u ∈ users) (hnone : ∀ s ∈ servers, gp s.url u.id = none) :
    ∃ msg, syncTop gp gui fetch put servers users = .error msg :=
  syncTop_error hu hnone

/-- C9: over any discovery sequence produced by `Sync.sync`, a user id
reached via any number of paths yields exactly one entry in the collected
task map; that entry keeps the first-seen sync mode, and its displayName
and knownName are the first truthy (non-empty) ones among the discoveries
for that id. -/
theorem c9_dedup_merge (gp : String → String → Option Profile)
    (servers : List ServerInfo) (users : List SyncUserOpts)
    (infos : List SyncUserOptions) (id : String)
    (j0 : SyncUserOptions) (js : List SyncUserOptions)
    (hseq : syncCollectSeq gp servers users = .ok infos)
    (hfil : infos.filter (fun i => i.user.id == id) = j0 :: js) :
    syncCollect gp servers users = .ok (infos.foldl addUser []) ∧
    (infos.foldl addUser []).countP (fun p => p.1 == id) = 1 ∧
    (infos.foldl addUser []).find? (fun p => p.1 == id) =
      some (j0.user.id, js.foldl mergeUser j0) ∧
    j0.user.id = id ∧
    (js.foldl mergeUser j0).sync = j0.sync ∧
    (∀ v, ((j0 :: js).map (fun i => i.user.displayName)).find? truthy = some v →
      (js.foldl mergeUser j0).user.displayName = v) ∧
    (∀ v, ((j0 :: js).map (fun i => i.user.knownName)).find? truthy = some v →
      (js.foldl mergeUser j0).user.knownName = v) := by
  have hcol : syncCollect gp servers users = .ok (infos.foldl addUser []) := by
    rw [syncCollect, hseq]
  have hfind : (infos.foldl addUser []).find? (fun p => p.1 == id) =
      some (j0.user.id, js.foldl mergeUser j0) := by
    have hful := foldl_addUser_find id infos []
    rw [List.find?_nil, hfil] at hful
    exact hful
  have hnd := foldl_addUser_keys_nodup infos [] (by simp)
  have hcount := list_countP_key_eq_one (infos.foldl addUser []) id hnd ⟨_, hfind⟩
  have hj0id : j0.user.id = id := by
    have hj0mem : j0 ∈ infos.filter (fun i => i.user.id == id) := by
      rw [hfil]
      exact List.mem_cons_self _ _
    exact eq_of_beq (List.mem_filter.mp hj0mem).2
  refine ⟨hcol, hcount, hfind, hj0id, foldl_mergeUser_sync js j0, ?_, ?_⟩
  · intro v hv
    rw [foldl_mergeUser_displayName]
    apply foldl_orElseJS_first
    rw [List.map_cons] at hv
    exact hv
  · intro v hv
    rw [foldl_mergeUser_knownName]
    apply foldl_orElseJS_first
    rw [List.map_cons] at hv
    exact hv

/-- Witness for C7 at a concrete one-server state. -/
theorem c7_witness :
    matchesOf [⟨⟨"a", none, true⟩, [[1]], [⟨5, [1]⟩]⟩] ≠ [] ∧
    (∃ m0 i, (matchesOf [⟨⟨"a", none, true⟩, [[1]], [⟨5, [1]⟩]⟩]).head? = some m0 ∧
      m0.remaining.head? = some i) ∧
    ∀ (fetch : String → String → Sig → Option Bytes)
      (put : String → String → Sig → Bytes → Bool) (uid : String)
      (ev : List CopyEvent) (st : List SrvState),
      syncStep fetch put uid [⟨⟨"a", none, true⟩, [[1]], [⟨5, [1]⟩]⟩] ≠
        .err "coding logic error: can not find next Item" ev st :=
  c7_matches_nonempty [⟨⟨"a", none, true⟩, [[1]], [⟨5, [1]⟩]⟩] (by decide)

/-- Witness for C2 at a concrete two-server state. -/
theorem c2_witness :
    (tipOf [⟨⟨"a", none, true⟩, [[1]], [⟨5, [1]⟩]⟩, ⟨⟨"b", none, true⟩, [], []⟩] ∈
        timestampsOf [⟨⟨"a", none, true⟩, [[1]], [⟨5, [1]⟩]⟩, ⟨⟨"b", none, true⟩, [], []⟩] ∧
      ∀ t ∈ timestampsOf [⟨⟨"a", none, true⟩, [[1]], [⟨5, [1]⟩]⟩, ⟨⟨"b", none, true⟩, [], []⟩],
        t ≤ tipOf [⟨⟨"a", none, true⟩, [[1]], [⟨5, [1]⟩]⟩, ⟨⟨"b", none, true⟩, [], []⟩]) ∧
    matchesOf [⟨⟨"a", none, true⟩, [[1]], [⟨5, [1]⟩]⟩, ⟨⟨"b", none, true⟩, [], []⟩] =
      ([⟨⟨"a", none, true⟩, [[1]], [⟨5, [1]⟩]⟩, ⟨⟨"b", none, true⟩, [], []⟩] :
        List SrvState).filter (fun s => peekTs s ==
          some (tipOf [⟨⟨"a", none, true⟩, [[1]], [⟨5, [1]⟩]⟩, ⟨⟨"b", none, true⟩, [], []⟩])) ∧
    othersOf [⟨⟨"a", none, true⟩, [[1]], [⟨5, [1]⟩]⟩, ⟨⟨"b", none, true⟩, [], []⟩] =
      ([⟨⟨"a", none, true⟩, [[1]], [⟨5, [1]⟩]⟩, ⟨⟨"b", none, true⟩, [], []⟩] :
        List SrvState).filter (fun s =>
        match peekTs s with
        | some t => decide (t < tipOf [⟨⟨"a", none, true⟩, [[1]], [⟨5, [1]⟩]⟩,
            ⟨⟨"b", none, true⟩, [], []⟩])
        | none => true) ∧
    (∀ (fetch : String → String → Sig → Option Bytes)
      (put : String → String → Sig → Bytes → Bool) (uid : String)
      (tip : Int) (call : CopyCall) (ev : List CopyEvent) (st2 : List SrvState),
      syncStep fetch put uid [⟨⟨"a", none, true⟩, [[1]], [⟨5, [1]⟩]⟩,
        ⟨⟨"b", none, true⟩, [], []⟩] = .stepped tip call ev st2 →
      tip = tipOf [⟨⟨"a", none, true⟩, [[1]], [⟨5, [1]⟩]⟩, ⟨⟨"b", none, true⟩, [], []⟩] ∧
      call.sources = (matchesOf [⟨⟨"a", none, true⟩, [[1]], [⟨5, [1]⟩]⟩,
        ⟨⟨"b", none, true⟩, [], []⟩]).map (fun s => s.server) ∧
      call.destinations = (othersOf [⟨⟨"a", none, true⟩, [[1]], [⟨5, [1]⟩]⟩,
        ⟨⟨"b", none, true⟩, [], []⟩]).map (fun s => s.server)) ∧
    (∀ (fetch : String → String → Sig → Option Bytes)
      (put : String → String → Sig → Bytes → Bool) (uid : String) (sig : Sig)
      (sources destinations : List ServerInfo) (sts : List SrvState),
      ∀ e ∈ (copyItem fetch put uid sig sources destinations sts).events,
        ∃ d ∈ destinations.filter (fun d => d.isDest),
          e = CopyEvent.started d.url ∨ e = CopyEvent.success d.url ∨
            ∃ msg, e = CopyEvent.error d.url msg) :=
  c2_tip_partition [⟨⟨"a", none, true⟩, [[1]], [⟨5, [1]⟩]⟩, ⟨⟨"b", none, true⟩, [], []⟩]
    (by decide)

/-- Witness for C10 at count -3. -/
theorem c10_witness :
    moreToSync ⟨ModeKind.latest (-3), false⟩ 0 = false ∧
    (∀ (fetch : String → String → Sig → Option Bytes)
      (put : String → String → Sig → Bytes → Bool) (uid : String) (fuel : Nat)
      (states : List SrvState) (evAcc : List CopyEvent) (tipAcc : List Int),
      runSync fetch put uid ⟨ModeKind.latest (-3), false⟩ (fuel + 1) 0 states evAcc tipAcc =
        some ⟨states, evAcc, 0, tipAcc, none⟩) ∧
    (∀ n : Nat, moreToSyncEarlier (-3) n = true) :=
  c10_latest_nonpositive (-3) false (by decide)

/-- Witness for C3 (amended) at a concrete copy with two destinations. -/
theorem c3_witness :
    ((fun _ _ _ => some [7] : String → String → Sig → Option Bytes) "s0" "u" [9] = none →
      copyItem (fun _ _ _ => some [7]) (fun url _ _ _ => !(url == "d1")) "u" [9]
        [⟨"s0", none, false⟩] [⟨"d1", none, true⟩, ⟨"d2", none, true⟩] [] =
        ⟨[CopyEvent.started "d1",
          CopyEvent.error "d1" "Could not copy item from source"], [], none⟩) ∧
    (∀ b, (fun _ _ _ => some [7] : String → String → Sig → Option Bytes) "s0" "u" [9] = some b →
      (fun url _ _ _ => !(url == "d1") : String → String → Sig → Bytes → Bool) "d1" "u" [9] b =
        false →
      copyItem (fun _ _ _ => some [7]) (fun url _ _ _ => !(url == "d1")) "u" [9]
        [⟨"s0", none, false⟩] [⟨"d1", none, true⟩, ⟨"d2", none, true⟩] [] =
        ⟨[CopyEvent.started "d1"], [], some "putItem failed"⟩) ∧
    (∀ (mode : SyncMode) (fuel n : Nat) (evAcc : List CopyEvent) (tipAcc : List Int)
      (msg : String) (ev : List CopyEvent) (st : List SrvState),
      moreToSync mode n = true →
      syncStep (fun _ _ _ => some [7]) (fun url _ _ _ => !(url == "d1")) "u" [] =
        .err msg ev st →
      runSync (fun _ _ _ => some [7]) (fun url _ _ _ => !(url == "d1")) "u" mode (fuel + 1) n
        [] evAcc tipAcc = some ⟨st, evAcc ++ ev, n, tipAcc, some msg⟩) :=
  c3_copy_failure_behavior (fun _ _ _ => some [7]) (fun url _ _ _ => !(url == "d1")) "u" [9]
    [⟨"s0", none, false⟩] [⟨"d1", none, true⟩, ⟨"d2", none, true⟩] []
    ⟨"s0", none, false⟩ ⟨"d1", none, true⟩ [⟨"d2", none, true⟩] rfl (by decide)

/-- Witness for C4 (amended): one configured user whose profile no server
has. -/
theorem c4_witness :
    ∃ msg, syncTop (fun _ _ => none) (fun _ _ => []) (fun _ _ _ => some [7])
      (fun _ _ _ _ => true) [⟨"s1", none, true⟩, ⟨"s2", none, false⟩]
      [⟨"alice", "u1", ⟨ModeKind.full, false⟩⟩] = .error msg :=
  c4_missing_profile_aborts_run (fun _ _ => none) (fun _ _ => []) (fun _ _ _ => some [7])
    (fun _ _ _ _ => true) [⟨"s1", none, true⟩, ⟨"s2", none, false⟩]
    [⟨"alice", "u1", ⟨ModeKind.full, false⟩⟩] ⟨"alice", "u1", ⟨ModeKind.full, false⟩⟩
    (by decide) (by decide)

/-- Witness for C1 on the spec's concrete divergence scenario: server a has
timestamps [300, 200, 100], server b has [300, 100]. -/
theorem c1_witness :
    ∃ out, runSync (fun _ _ _ => some [7]) (fun _ _ _ _ => true) "u" ⟨ModeKind.full, false⟩
        (totalRemaining (initStates [(⟨"a", none, true⟩, [⟨300, [1]⟩, ⟨200, [2]⟩, ⟨100, [3]⟩]),
          (⟨"b", none, true⟩, [⟨300, [1]⟩, ⟨100, [3]⟩])]) + 1) 0
        (initStates [(⟨"a", none, true⟩, [⟨300, [1]⟩, ⟨200, [2]⟩, ⟨100, [3]⟩]),
          (⟨"b", none, true⟩, [⟨300, [1]⟩, ⟨100, [3]⟩])]) [] [] = some out ∧
      out.error = none ∧
      ∀ d ∈ out.states, d.server.isDest = true →
        ∀ p ∈ ([(⟨"a", none, true⟩, [⟨300, [1]⟩, ⟨200, [2]⟩, ⟨100, [3]⟩]),
          (⟨"b", none, true⟩, [⟨300, [1]⟩, ⟨100, [3]⟩])] :
            List (ServerInfo × List ItemRef)), ∀ x ∈ p.2, x.signature ∈ d.store :=
  c1_full_sync_converges (fun _ _ _ => some [7]) (fun _ _ _ _ => true) "u" false
    [(⟨"a", none, true⟩, [⟨300, [1]⟩, ⟨200, [2]⟩, ⟨100, [3]⟩]),
      (⟨"b", none, true⟩, [⟨300, [1]⟩, ⟨100, [3]⟩])]
    (by intro s hs; fin_cases hs <;> norm_num [List.chain'_cons, List.chain'_singleton])
    (by decide) (fun _ _ _ => rfl) (fun _ _ _ _ => rfl)

/-- Witness for C5 on the same scenario with count 2. -/
theorem c5_witness :
    ∃ out, runSync (fun _ _ _ => some [7]) (fun _ _ _ _ => true) "u" ⟨ModeKind.latest 2, false⟩
        (totalRemaining (initStates [(⟨"a", none, true⟩, [⟨300, [1]⟩, ⟨200, [2]⟩, ⟨100, [3]⟩]),
          (⟨"b", none, true⟩, [⟨300, [1]⟩, ⟨100, [3]⟩])]) + 1) 0
        (initStates [(⟨"a", none, true⟩, [⟨300, [1]⟩, ⟨200, [2]⟩, ⟨100, [3]⟩]),
          (⟨"b", none, true⟩, [⟨300, [1]⟩, ⟨100, [3]⟩])]) [] [] = some out ∧
      out.error = none ∧
      out.synced ≤ (2 : Int).toNat ∧
      out.tips = (peel (allTs (initStates [(⟨"a", none, true⟩,
        [⟨300, [1]⟩, ⟨200, [2]⟩, ⟨100, [3]⟩]),
        (⟨"b", none, true⟩, [⟨300, [1]⟩, ⟨100, [3]⟩])]))).take (2 : Int).toNat ∧
      List.Chain' (fun a b => b < a) (peel (allTs (initStates [(⟨"a", none, true⟩,
        [⟨300, [1]⟩, ⟨200, [2]⟩, ⟨100, [3]⟩]),
        (⟨"b", none, true⟩, [⟨300, [1]⟩, ⟨100, [3]⟩])]))) ∧
      (∀ t, t ∈ peel (allTs (initStates [(⟨"a", none, true⟩,
        [⟨300, [1]⟩, ⟨200, [2]⟩, ⟨100, [3]⟩]),
        (⟨"b", none, true⟩, [⟨300, [1]⟩, ⟨100, [3]⟩])])) ↔
        t ∈ allTs (initStates [(⟨"a", none, true⟩,
          [⟨300, [1]⟩, ⟨200, [2]⟩, ⟨100, [3]⟩]),
          (⟨"b", none, true⟩, [⟨300, [1]⟩, ⟨100, [3]⟩])])) :=
  c5_latest_bounded (fun _ _ _ => some [7]) (fun _ _ _ _ => true) "u" false 2
    [(⟨"a", none, true⟩, [⟨300, [1]⟩, ⟨200, [2]⟩, ⟨100, [3]⟩]),
      (⟨"b", none, true⟩, [⟨300, [1]⟩, ⟨100, [3]⟩])]
    (by decide)
    (by intro s hs; fin_cases hs <;> norm_num [List.chain'_cons, List.chain'_singleton])
    (by decide) (by decide) (fun _ _ _ => rfl) (fun _ _ _ _ => rfl)

/-- Witness for C6: the concrete scenario's run selects tips
[300, 200, 100], which is non-increasing. -/
theorem c6_witness :
    List.Chain' (fun a b => b ≤ a)
      (RunOut.mk [⟨⟨"a", none, true⟩, [[1], [2], [3]], []⟩,
        ⟨⟨"b", none, true⟩, [[2], [1], [3]], []⟩]
        [CopyEvent.started "b", CopyEvent.success "b"] 3 [300, 200, 100] none).tips :=
  c6_tips_monotone (fun _ _ _ => some [7]) (fun _ _ _ _ => true) "u" ⟨ModeKind.full, false⟩ 6
    (initStates [(⟨"a", none, true⟩, [⟨300, [1]⟩, ⟨200, [2]⟩, ⟨100, [3]⟩]),
      (⟨"b", none, true⟩, [⟨300, [1]⟩, ⟨100, [3]⟩])])
    ⟨[⟨⟨"a", none, true⟩, [[1], [2], [3]], []⟩, ⟨⟨"b", none, true⟩, [[2], [1], [3]], []⟩],
      [CopyEvent.started "b", CopyEvent.success "b"], 3, [300, 200, 100], none⟩
    (by intro s hs; fin_cases hs <;> norm_num [List.chain'_cons, List.chain'_singleton])
    (by decide)

/-- Witness for C8 on the concrete scenario. -/
theorem c8_witness :
    (∃ out, runSync (fun _ _ _ => some [7]) (fun _ _ _ _ => true) "u" ⟨ModeKind.full, false⟩
        (totalRemaining (initStates [(⟨"a", none, true⟩, [⟨300, [1]⟩, ⟨200, [2]⟩, ⟨100, [3]⟩]),
          (⟨"b", none, true⟩, [⟨300, [1]⟩, ⟨100, [3]⟩])]) + 1) 0
        (initStates [(⟨"a", none, true⟩, [⟨300, [1]⟩, ⟨200, [2]⟩, ⟨100, [3]⟩]),
          (⟨"b", none, true⟩, [⟨300, [1]⟩, ⟨100, [3]⟩])]) [] [] = some out ∧
      out.error = none ∧
      (timestampsOf out.states = [] ∨ moreToSync ⟨ModeKind.full, false⟩ out.synced = false)) ∧
    (∀ (sts : List SrvState) (tip : Int) (call : CopyCall) (ev : List CopyEvent)
      (st2 : List SrvState),
      syncStep (fun _ _ _ => some [7]) (fun _ _ _ _ => true) "u" sts = .stepped tip call ev st2 →
      (∃ s ∈ sts, isMatch (tipOf sts) s = true ∧ s.remaining ≠ []) ∧
      totalRemaining st2 < totalRemaining sts) :=
  c8_terminates (fun _ _ _ => some [7]) (fun _ _ _ _ => true) "u" ⟨ModeKind.full, false⟩
    (initStates [(⟨"a", none, true⟩, [⟨300, [1]⟩, ⟨200, [2]⟩, ⟨100, [3]⟩]),
      (⟨"b", none, true⟩, [⟨300, [1]⟩, ⟨100, [3]⟩])])
    (fun _ _ _ => rfl) (fun _ _ _ _ => rfl)

/-- Witness for C9: user c is reached via two different follow lists
(named "Charlie" by a and "Chuck" by b) and directly (profile display name
"Ceasar"); the task map keeps one entry for c with a's full mode, known
name "Charlie" and display name "Ceasar". -/
theorem c9_witness :
    syncCollect (fun url uid => if url == "s1" then
        (if uid == "a" then some ⟨100, [1], some "Alice", [⟨"c", some "Charlie"⟩]⟩
         else if uid == "b" then some ⟨90, [2], some "Bob", [⟨"c", some "Chuck"⟩]⟩
         else if uid == "c" then some ⟨80, [3], some "Ceasar", []⟩
         else none) else none)
      [⟨"s1", none, true⟩, ⟨"s2", none, false⟩]
      [⟨"alice", "a", ⟨ModeKind.full, true⟩⟩, ⟨"bob", "b", ⟨ModeKind.latest 5, true⟩⟩,
        ⟨"charlie", "c", ⟨ModeKind.full, false⟩⟩] =
      .ok (([⟨⟨"a", some "Alice", none⟩, ⟨ModeKind.full, true⟩⟩,
        ⟨⟨"c", none, some "Charlie"⟩, ⟨ModeKind.full, true⟩⟩,
        ⟨⟨"b", some "Bob", none⟩, ⟨ModeKind.latest 5, true⟩⟩,
        ⟨⟨"c", none, some "Chuck"⟩, ⟨ModeKind.latest 5, true⟩⟩,
        ⟨⟨"c", some "Ceasar", none⟩, ⟨ModeKind.full, false⟩⟩] :
          List SyncUserOptions).foldl addUser []) ∧
    (([⟨⟨"a", some "Alice", none⟩, ⟨ModeKind.full, true⟩⟩,
      ⟨⟨"c", none, some "Charlie"⟩, ⟨ModeKind.full, true⟩⟩,
      ⟨⟨"b", some "Bob", none⟩, ⟨ModeKind.latest 5, true⟩⟩,
      ⟨⟨"c", none, some "Chuck"⟩, ⟨ModeKind.latest 5, true⟩⟩,
      ⟨⟨"c", some "Ceasar", none⟩, ⟨ModeKind.full, false⟩⟩] :
        List SyncUserOptions).foldl addUser []).countP (fun p => p.1 == "c") = 1 ∧
    (([⟨⟨"a", some "Alice", none⟩, ⟨ModeKind.full, true⟩⟩,
      ⟨⟨"c", none, some "Charlie"⟩, ⟨ModeKind.full, true⟩⟩,
      ⟨⟨"b", some "Bob", none⟩, ⟨ModeKind.latest 5, true⟩⟩,
      ⟨⟨"c", none, some "Chuck"⟩, ⟨ModeKind.latest 5, true⟩⟩,
      ⟨⟨"c", some "Ceasar", none⟩, ⟨ModeKind.full, false⟩⟩] :
        List SyncUserOptions).foldl addUser []).find? (fun p => p.1 == "c") =
      some ((⟨⟨"c", none, some "Charlie"⟩, ⟨ModeKind.full, true⟩⟩ :
        SyncUserOptions).user.id,
        ([⟨⟨"c", none, some "Chuck"⟩, ⟨ModeKind.latest 5, true⟩⟩,
          ⟨⟨"c", some "Ceasar", none⟩, ⟨ModeKind.full, false⟩⟩] :
            List SyncUserOptions).foldl mergeUser
          ⟨⟨"c", none, some "Charlie"⟩, ⟨ModeKind.full, true⟩⟩) ∧
    (⟨⟨"c", none, some "Charlie"⟩, ⟨ModeKind.full, true⟩⟩ :
      SyncUserOptions).user.id = "c" ∧
    (([⟨⟨"c", none, some "Chuck"⟩, ⟨ModeKind.latest 5, true⟩⟩,
      ⟨⟨"c", some "Ceasar", none⟩, ⟨ModeKind.full, false⟩⟩] :
        List SyncUserOptions).foldl mergeUser
      ⟨⟨"c", none, some "Charlie"⟩, ⟨ModeKind.full, true⟩⟩).sync =
      (⟨⟨"c", none, some "Charlie"⟩, ⟨ModeKind.full, true⟩⟩ : SyncUserOptions).sync ∧
    (∀ v, (((⟨⟨"c", none, some "Charlie"⟩, ⟨ModeKind.full, true⟩⟩ : SyncUserOptions) ::
        [⟨⟨"c", none, some "Chuck"⟩, ⟨ModeKind.latest 5, true⟩⟩,
          ⟨⟨"c", some "Ceasar", none⟩, ⟨ModeKind.full, false⟩⟩]).map
          (fun i => i.user.displayName)).find? truthy = some v →
      (([⟨⟨"c", none, some "Chuck"⟩, ⟨ModeKind.latest 5, true⟩⟩,
        ⟨⟨"c", some "Ceasar", none⟩, ⟨ModeKind.full, false⟩⟩] :
          List SyncUserOptions).foldl mergeUser
        ⟨⟨"c", none, some "Charlie"⟩, ⟨ModeKind.full, true⟩⟩).user.displayName = v) ∧
    (∀ v, (((⟨⟨"c", none, some "Charlie"⟩, ⟨ModeKind.full, true⟩⟩ : SyncUserOptions) ::
        [⟨⟨"c", none, some "Chuck"⟩, ⟨ModeKind.latest 5, true⟩⟩,
          ⟨⟨"c", some "Ceasar", none⟩, ⟨ModeKind.full, false⟩⟩]).map
          (fun i => i.user.knownName)).find? truthy = some v →
      (([⟨⟨"c", none, some "Chuck"⟩, ⟨ModeKind.latest 5, true⟩⟩,
        ⟨⟨"c", some "Ceasar", none⟩, ⟨ModeKind.full, false⟩⟩] :
          List SyncUserOptions).foldl mergeUser
        ⟨⟨"c", none, some "Charlie"⟩, ⟨ModeKind.full, true⟩⟩).user.knownName = v) :=
  c9_dedup_merge (fun url uid => if url == "s1" then
      (if uid == "a" then some ⟨100, [1], some "Alice", [⟨"c", some "Charlie"⟩]⟩
       else if uid == "b" then some ⟨90, [2], some "Bob", [⟨"c", some "Chuck"⟩]⟩
       else if uid == "c" then some ⟨80, [3], some "Ceasar", []⟩
       else none) else none)
    [⟨"s1", none, true⟩, ⟨"s2", none, false⟩]
    [⟨"alice", "a", ⟨ModeKind.full, true⟩⟩, ⟨"bob", "b", ⟨ModeKind.latest 5, true⟩⟩,
      ⟨"charlie", "c", ⟨ModeKind.full, false⟩⟩]
    [⟨⟨"a", some "Alice", none⟩, ⟨ModeKind.full, true⟩⟩,
      ⟨⟨"c", none, some "Charlie"⟩, ⟨ModeKind.full, true⟩⟩,
      ⟨⟨"b", some "Bob", none⟩, ⟨ModeKind.latest 5, true⟩⟩,
      ⟨⟨"c", none, some "Chuck"⟩, ⟨ModeKind.latest 5, true⟩⟩,
      ⟨⟨"c", some "Ceasar", none⟩, ⟨ModeKind.full, false⟩⟩]
    "c" ⟨⟨"c", none, some "Charlie"⟩, ⟨ModeKind.full, true⟩⟩
    [⟨⟨"c", none, some "Chuck"⟩, ⟨ModeKind.latest 5, true⟩⟩,
      ⟨⟨"c", some "Ceasar", none⟩, ⟨ModeKind.full, false⟩⟩]
    rfl rfl

end DiskutoSync
